import Mathlib

/-!
# ThreadPool: a work pool with a print serialiser

A shallow embedding of `src/ThreadPool.hpp` / `src/ThreadPool.cpp`.

The class is a concurrent object, so it is embedded as a labelled transition
system.  A state holds the data members of the class, the control point of
every thread of control, and instrumentation logs.  A step is what one thread
does while it holds one of the two mutexes (or one thread-local action), so
all interleavings of the critical sections of the source are steps of the
system.  `condition_variable::wait(lock, pred)` is a step that is enabled
only when `pred` holds: the predicate is evaluated under the mutex, and every
write to the variables it reads is made under the same mutex and followed by
a notify, so a waiter never misses a wake-up.

Callables are opaque to the pool.  A work item is modelled by an identifier
and the list of print items it hands to `submitPrintTask` while it runs (the
use the print queue exists for); a print item is an identifier.  Items
terminate and do not throw.  The member `verbose` is private, initialised to
`false` and never assigned, so the tracing branches are dead code and are
left out.  `int` and `unsigned` are 32 bits wide, `size_t` is 64 bits wide.

The owner of the pool is one thread that makes a list of calls, its program;
the destructor is a `shutdown` call at the end of that list.
-/

namespace ThreadPool

/-! ## Machine integers -/

/-- Conversion of an `unsigned` / `size_t` value to `int` (32-bit two's complement). -/
def toInt (u : Nat) : Int :=
  if u % 2 ^ 32 < 2 ^ 31 then ((u % 2 ^ 32 : Nat) : Int) else ((u % 2 ^ 32 : Nat) : Int) - 2 ^ 32

/-- Conversion of an `int` to `size_t` (64-bit), as the usual arithmetic conversions do in
`i < num_threads` when `i` is a `size_t` and `num_threads` an `int`. -/
def toSizeT (i : Int) : Nat := (i % 2 ^ 64).toNat

/-! ## Data model -/

/-- A work item: `id` names it, `prints` are the print items it submits, in order, while it
runs. -/
structure WorkItem where
  id : Nat
  prints : List Nat
deriving DecidableEq, Repr

/-- Control point of a thread running `worker_loop`. -/
inductive WorkerPc
  /-- At `condition.wait` (line 32). -/
  | waiting
  /-- Inside `task()` (line 42), the item has made its first `k` print submissions. -/
  | calling (t : WorkItem) (k : Nat)
  /-- The loop took `tasks.front()` of an empty queue. -/
  | fault
  /-- Left the loop through `break` (line 36). -/
  | exited
deriving DecidableEq, Repr

/-- Control point of `printerThread`. -/
inductive PrinterPc
  /-- A default-constructed `std::thread`: no thread of control at all. -/
  | absent
  /-- At `printCondition.wait` (line 53). -/
  | waiting
  /-- Inside `task()` (line 82) with a dequeued item. -/
  | calling (p : Nat)
  /-- Called `task()` while `task` was the empty `std::function`. -/
  | fault
  /-- Left the loop through `break` (line 68). -/
  | exited
deriving DecidableEq, Repr

/-- A `std::thread` object running `worker_loop`. -/
structure Worker where
  pc : WorkerPc
  joinable : Bool
deriving DecidableEq, Repr

/-- The `std::thread printerThread` member. -/
structure Printer where
  pc : PrinterPc
  joinable : Bool
deriving DecidableEq, Repr

/-- A call the owner of the pool makes. -/
inductive Op
  | submitTask (t : WorkItem)
  | submitPrintTask (p : Nat)
  | shutdown
deriving DecidableEq, Repr

/-- Control point of the owner's thread. -/
inductive MainPc
  /-- Between two calls. -/
  | client
  /-- In `shutdown`, at element `i` of the range-for over `workers` (lines 117-123). -/
  | joinWorkers (i : Nat)
  /-- In `shutdown`, at `if (printerThread.joinable())` (line 133). -/
  | joinPrinter
deriving DecidableEq, Repr

/-- The pool, its threads, its owner, and the instrumentation logs. -/
structure State where
  /-- Member `workers`. -/
  workers : List Worker
  /-- Member `tasks`, front of the queue first. -/
  tasks : List WorkItem
  /-- Member `taskStop`. -/
  taskStop : Bool
  /-- Member `printerThread`. -/
  printerThread : Printer
  /-- Member `printQueue`, front of the queue first. -/
  printQueue : List Nat
  /-- Member `printStop`. -/
  printStop : Bool
  /-- Calls the owner still has to make. -/
  prog : List Op
  /-- Where the owner is. -/
  pc : MainPc
  /-- Log: work items in the order `submitTask` pushed them. -/
  submitted : List WorkItem
  /-- Log: work items in the order `worker_loop` popped them. -/
  started : List WorkItem
  /-- Log: work items in the order their `task()` call returned. -/
  executed : List WorkItem
  /-- Log: print items in the order `submitPrintTask` pushed them. -/
  printSubmitted : List Nat
  /-- Log: the print items among `printSubmitted` that the owner pushed. -/
  clientPrints : List Nat
  /-- Log: print items in the order their `task()` call returned in `printer_loop`. -/
  printed : List Nat
deriving DecidableEq, Repr

/-! ## Construction -/

/-- State right after a constructor that spawned `n` workers; `p` is `printerThread`. -/
def construct (n : Nat) (p : Printer) (prog : List Op) : State where
  workers := List.replicate n ⟨.waiting, true⟩
  tasks := []
  taskStop := false
  printerThread := p
  printQueue := []
  printStop := false
  prog := prog
  pc := .client
  submitted := []
  started := []
  executed := []
  printSubmitted := []
  clientPrints := []
  printed := []

/-- Number of iterations of `for (size_t i = 0; i < num_threads; ++i)` in `ThreadPool()`,
where `int num_threads = std::thread::hardware_concurrency()` and `h` is the value
reported. -/
def defaultThreads (h : Nat) : Nat := toSizeT (toInt h)

/-- Constructor `ThreadPool()`: `h` is what `hardware_concurrency()` reports; the printer
thread is started. -/
def mkDefault (h : Nat) (prog : List Op) : State :=
  construct (defaultThreads h) ⟨.waiting, true⟩ prog

/-- Constructor `ThreadPool(size_t num_threads)`: `printerThread` stays default-constructed. -/
def mkExplicit (n : Nat) (prog : List Op) : State :=
  construct n ⟨.absent, false⟩ prog

/-- Getter `int getWorkerCount()`: `workers.size()` converted to `int`. -/
def getWorkerCount (s : State) : Int := toInt s.workers.length

/-! ## The two dispatch loops -/

/-- The wake predicate handed to `wait`: `stop || !queue.empty()`. -/
def wake {α : Type} (stop : Bool) (queue : List α) : Bool := stop || !queue.isEmpty

/-- What one loop iteration does after `wait` has returned. -/
inductive Iter (α : Type)
  /-- The `break` statement: the unit terminates. -/
  | stop
  /-- The iteration reaches `task()`; `task` is the local variable (`none` is the empty
  `std::function`), `rest` is the queue it leaves behind. -/
  | call (task : Option α) (rest : List α)
deriving DecidableEq, Repr

/-- Body of `worker_loop` after the wait (lines 36-42). -/
def workerIter {α : Type} (taskStop : Bool) (tasks : List α) : Iter α :=
  if taskStop && tasks.isEmpty then .stop
  else .call tasks.head? tasks.tail

/-- Body of `printer_loop` after the wait (lines 62-82): `task` starts out empty and is
assigned only under `if (!printQueue.empty())`. -/
def printerIter {α : Type} (printStop : Bool) (printQueue : List α) : Iter α :=
  if printStop && printQueue.isEmpty then .stop
  else if !printQueue.isEmpty then .call printQueue.head? printQueue.tail
  else .call none printQueue

/-! ## Steps -/

/-- Names a thread of control. -/
inductive Thr
  | main
  | worker (i : Nat)
  | printer
deriving DecidableEq, Repr

/-- Replace worker `i`. -/
def State.setWorker (s : State) (i : Nat) (w : Worker) : State :=
  { s with workers := s.workers.set i w }

/-- Function `submitTask` (lines 86-93): push at the back of `tasks` under `queue_mutex`. -/
def submitTask (s : State) (t : WorkItem) : State :=
  { s with tasks := s.tasks ++ [t], submitted := s.submitted ++ [t] }

/-- Function `submitPrintTask` (lines 95-106): push at the back of `printQueue` under
`printQueueMutex`. -/
def submitPrintTask (s : State) (p : Nat) : State :=
  { s with printQueue := s.printQueue ++ [p], printSubmitted := s.printSubmitted ++ [p] }

/-- Function `worker_loop` (lines 25-44), one step of the thread that is element `i` of
`workers`: from the wait through the pop, one print submission of the running work item, or
the return of `task()`. -/
def worker_loop (s : State) (i : Nat) : Option State :=
  match s.workers[i]? with
  | none => none
  | some w =>
    match w.pc with
    | .waiting =>
      if wake s.taskStop s.tasks then
        match workerIter s.taskStop s.tasks with
        | .stop => some (s.setWorker i { w with pc := .exited })
        | .call (some t) rest =>
          some ({ s with tasks := rest, started := s.started ++ [t] }.setWorker i
            { w with pc := .calling t 0 })
        | .call none rest => some ({ s with tasks := rest }.setWorker i { w with pc := .fault })
      else none
    | .calling t k =>
      match t.prints[k]? with
      | some p => some ((submitPrintTask s p).setWorker i { w with pc := .calling t (k + 1) })
      | none => some ({ s with executed := s.executed ++ [t] }.setWorker i
          { w with pc := .waiting })
    | .fault => none
    | .exited => none

/-- Function `printer_loop` (lines 46-84), one step of the printer thread: from the wait
through the pop, or the return of `task()`. -/
def printer_loop (s : State) : Option State :=
  match s.printerThread.pc with
  | .absent => none
  | .waiting =>
    if wake s.printStop s.printQueue then
      match printerIter s.printStop s.printQueue with
      | .stop => some { s with printerThread := { s.printerThread with pc := .exited } }
      | .call (some p) rest =>
        some { s with printQueue := rest,
                      printerThread := { s.printerThread with pc := .calling p } }
      | .call none rest =>
        some { s with printQueue := rest,
                      printerThread := { s.printerThread with pc := .fault } }
    else none
  | .calling p =>
    some { s with printed := s.printed ++ [p],
                  printerThread := { s.printerThread with pc := .waiting } }
  | .fault => none
  | .exited => none

/-- Function `shutdown` (lines 108-137), one stage a step. Called from between two calls
it sets `taskStop` under `queue_mutex` and enters the range-for over `workers`; at element
`i` it joins the worker if it is joinable, which `join` allows only once the worker has left
its loop; past the last element it sets `printStop` under `printQueueMutex`; finally it
joins the printer if it is joinable, and returns. -/
def shutdown (s : State) : Option State :=
  match s.pc with
  | .client => some { s with taskStop := true, pc := .joinWorkers 0 }
  | .joinWorkers i =>
    match s.workers[i]? with
    | none => some { s with printStop := true, pc := .joinPrinter }
    | some w =>
      if w.joinable then
        if w.pc = .exited then
          some { s.setWorker i { w with joinable := false } with pc := .joinWorkers (i + 1) }
        else none
      else some { s with pc := .joinWorkers (i + 1) }
  | .joinPrinter =>
    if s.printerThread.joinable then
      if s.printerThread.pc = .exited then
        some { s with printerThread := { s.printerThread with joinable := false },
                      pc := .client }
      else none
    else some { s with pc := .client }

/-- One step of the owner: between two calls, its next call (a whole `submitTask` or
`submitPrintTask`, or the first stage of `shutdown`); inside `shutdown`, the next stage. -/
def mainStep (s : State) : Option State :=
  match s.pc with
  | .client =>
    match s.prog with
    | [] => none
    | .submitTask t :: rest => some { submitTask s t with prog := rest }
    | .submitPrintTask p :: rest =>
      some { submitPrintTask s p with prog := rest, clientPrints := s.clientPrints ++ [p] }
    | .shutdown :: rest => shutdown { s with prog := rest }
  | _ => shutdown s

/-- One step of thread `l`; `none` when the thread is blocked or has ended. -/
def step (s : State) : Thr → Option State
  | .main => mainStep s
  | .worker i => worker_loop s i
  | .printer => printer_loop s

/-- Run a schedule: the threads named take one step each, in that order. -/
def run (s : State) : List Thr → Option State
  | [] => some s
  | l :: ls => (step s l).bind fun s' => run s' ls

/-- States some schedule leads to from `s`. -/
def Reach (s s' : State) : Prop := ∃ sched, run s sched = some s'

/-- The owner has made all its calls and the last one has returned. -/
def State.finished (s : State) : Bool := s.pc = .client && s.prog.isEmpty

/-! ## Items in flight -/


/-- Work item a worker is executing, if any. -/
def WorkerPc.cur : WorkerPc → Option WorkItem
  | .calling t _ => some t
  | _ => none

/-- Work items popped from `tasks` whose `task()` call has not returned yet. -/
def inflight (s : State) : List WorkItem := s.workers.filterMap fun w => w.pc.cur

/-- Print item popped from `printQueue` whose `task()` call has not returned yet. -/
def pInflight (s : State) : List Nat :=
  match s.printerThread.pc with
  | .calling p => [p]
  | _ => []

/-! ## Invariants -/


/-- Invariant on control points, thread handles and the two stop flags. -/
structure Ctl (s : State) : Prop where
  noFault : ∀ w ∈ s.workers, w.pc ≠ .fault
  joined : ∀ w ∈ s.workers, w.joinable = false → w.pc = .exited
  exitedStop : ∀ w ∈ s.workers, w.pc = .exited → s.taskStop = true
  pNoFault : s.printerThread.pc ≠ .fault
  pJoined : s.printerThread.joinable = false →
    s.printerThread.pc = .exited ∨ s.printerThread.pc = .absent
  pAbsent : s.printerThread.pc = .absent → s.printerThread.joinable = false
  pExitedStop : s.printerThread.pc = .exited → s.printStop = true
  joining : ∀ i, s.pc = .joinWorkers i →
    s.taskStop = true ∧ ∀ j w, j < i → s.workers[j]? = some w → w.joinable = false
  pJoining : s.pc = .joinPrinter → s.printStop = true
  stopOrder : s.printStop = true →
    s.taskStop = true ∧ (∀ w ∈ s.workers, w.joinable = false) ∧
      (s.pc = .joinPrinter ∨ s.printerThread.joinable = false)

/-- Invariant relating the queues to the instrumentation logs. -/
structure Logs (s : State) : Prop where
  fifo : s.started ++ s.tasks = s.submitted
  once : (s.executed ++ inflight s).Perm s.started
  inOrder : s.workers.length ≤ 1 → s.executed ++ inflight s = s.started
  pfifo : s.printed ++ pInflight s ++ s.printQueue = s.printSubmitted
  cprints : s.clientPrints.Sublist s.printSubmitted
  wprints : ∀ t ∈ s.executed, ∀ p ∈ t.prints, p ∈ s.printSubmitted
  wprintsNow : ∀ w ∈ s.workers, ∀ t k, w.pc = .calling t k →
    ∀ p ∈ t.prints.take k, p ∈ s.printSubmitted

/-- Work items a sequence of calls submits, in order. -/
def tasksOf : List Op → List WorkItem
  | [] => []
  | .submitTask t :: rest => t :: tasksOf rest
  | _ :: rest => tasksOf rest

/-- Print items a sequence of calls submits, in order. -/
def printsOf : List Op → List Nat
  | [] => []
  | .submitPrintTask p :: rest => p :: printsOf rest
  | _ :: rest => printsOf rest

/-- Every call after the first `shutdown` is again a `shutdown`: nothing is submitted to a
pool that has been shut down. -/
def shutdownsLast : List Op → Prop
  | [] => True
  | .shutdown :: rest => ∀ op ∈ rest, op = .shutdown
  | _ :: rest => shutdownsLast rest

/-- Invariant: what the owner has submitted and what it still has to submit make up its
program `prog0`. -/
structure Sent (prog0 : List Op) (s : State) : Prop where
  tasks : s.submitted ++ tasksOf s.prog = tasksOf prog0
  prints : s.clientPrints ++ printsOf s.prog = printsOf prog0

/-- Invariant of a pool whose owner submits nothing after it has called `shutdown`. -/
structure Orderly (s : State) : Prop where
  last : shutdownsLast s.prog
  stopped : s.taskStop = true → ∀ op ∈ s.prog, op = .shutdown
  drained : ∀ w ∈ s.workers, w.pc = .exited → s.tasks = []
  pDrained : s.printerThread.pc = .exited → s.printQueue = []

/-- Invariant of a pool whose owner's program contains a `shutdown`: as long as a stop flag
is down, the call that raises it is still to come or under way. -/
structure Pending (s : State) : Prop where
  first : s.taskStop = false → Op.shutdown ∈ s.prog
  second : s.printStop = false → Op.shutdown ∈ s.prog ∨ ∃ i, s.pc = .joinWorkers i

/-- Steps a work item accounts for: it is popped and it returns, and each of its print
items is pushed, popped and returns. -/
def WorkItem.cost (t : WorkItem) : Nat := 2 + 3 * t.prints.length

/-- Steps a call of the owner accounts for, in a pool of `n` workers. -/
def Op.cost (n : Nat) : Op → Nat
  | .submitTask t => 1 + t.cost
  | .submitPrintTask _ => 3
  | .shutdown => n + 3

/-- Steps a worker at this control point still accounts for. -/
def WorkerPc.cost : WorkerPc → Nat
  | .waiting => 1
  | .calling t k => 2 + 3 * (t.prints.length - k)
  | .fault => 0
  | .exited => 0

/-- Steps the printer at this control point still accounts for. -/
def PrinterPc.cost : PrinterPc → Nat
  | .waiting => 1
  | .calling _ => 2
  | _ => 0

/-- Steps the owner at this control point still accounts for, in a pool of `n` workers. -/
def MainPc.cost (n : Nat) : MainPc → Nat
  | .client => 0
  | .joinWorkers i => (n - i) + 2
  | .joinPrinter => 1

/-- A bound on the number of steps the system can still take. -/
def measure (s : State) : Nat :=
  (s.prog.map (Op.cost s.workers.length)).sum + s.pc.cost s.workers.length +
    (s.tasks.map WorkItem.cost).sum + (s.workers.map fun w => w.pc.cost).sum +
    2 * s.printQueue.length + s.printerThread.pc.cost

/-- The states the two constructors produce for an owner that will make the calls `prog`. -/
def Initial (prog : List Op) (s0 : State) : Prop :=
  (∃ h, s0 = mkDefault h prog) ∨ (∃ n, s0 = mkExplicit n prog)

/-! # Proofs -/

/-! ## Lists -/

theorem forall_mem_set {α : Type} {P : α → Prop} {l : List α} {i : Nat} {a : α}
    (h : ∀ x ∈ l, P x) (ha : P a) : ∀ x ∈ l.set i a, P x := by
  intro x hx
  rcases List.mem_or_eq_of_mem_set hx with hx | hx
  · exact h x hx
  · exact hx ▸ ha

theorem mem_of_getElem? {α : Type} {l : List α} {i : Nat} {a : α} (h : l[i]? = some a) :
    a ∈ l := by
  rw [List.getElem?_eq_some] at h
  obtain ⟨hi, rfl⟩ := h
  exact List.getElem_mem hi

theorem filterMap_set_same {α β : Type} (f : α → Option β) {l : List α} {i : Nat} {a b : α}
    (h : l[i]? = some a) (hf : f b = f a) : (l.set i b).filterMap f = l.filterMap f := by
  induction l generalizing i with
  | nil => simp
  | cons x xs ih =>
    cases i with
    | zero =>
      simp at h; subst h
      simp [List.filterMap_cons, hf]
    | succ i =>
      simp at h
      simp [List.filterMap_cons, ih h]

theorem filterMap_set_add {α β : Type} (f : α → Option β) {l : List α} {i : Nat} {a b : α}
    {t : β} (h : l[i]? = some a) (ha : f a = none) (hb : f b = some t) :
    ((l.set i b).filterMap f).Perm (t :: l.filterMap f) := by
  induction l generalizing i with
  | nil => simp at h
  | cons x xs ih =>
    cases i with
    | zero =>
      simp at h; subst h
      simp [List.filterMap_cons, ha, hb]
    | succ i =>
      simp at h
      simp only [List.set_cons_succ, List.filterMap_cons]
      cases hx : f x with
      | none => simpa using ih h
      | some y =>
        simp only
        exact ((ih h).cons y).trans (List.Perm.swap t y _)

theorem filterMap_set_del {α β : Type} (f : α → Option β) {l : List α} {i : Nat} {a b : α}
    {t : β} (h : l[i]? = some a) (ha : f a = some t) (hb : f b = none) :
    (t :: (l.set i b).filterMap f).Perm (l.filterMap f) := by
  induction l generalizing i with
  | nil => simp at h
  | cons x xs ih =>
    cases i with
    | zero =>
      simp at h; subst h
      simp [List.filterMap_cons, ha, hb]
    | succ i =>
      simp at h
      simp only [List.set_cons_succ, List.filterMap_cons]
      cases hx : f x with
      | none => simpa using ih h
      | some y =>
        simp only
        exact (List.Perm.swap y t _).trans ((ih h).cons y)

/-! ## Case analysis of steps -/



/-- Case analysis of a worker step. -/
theorem workerStep_cases {s s' : State} {i : Nat} (h : worker_loop s i = some s') :
    ∃ w, s.workers[i]? = some w ∧
      ((w.pc = .waiting ∧ s.taskStop = true ∧ s.tasks = [] ∧
          s' = s.setWorker i { w with pc := .exited }) ∨
       (∃ t rest, w.pc = .waiting ∧ s.tasks = t :: rest ∧
          s' = { s with tasks := rest, started := s.started ++ [t] }.setWorker i
            { w with pc := .calling t 0 }) ∨
       (∃ t k p, w.pc = .calling t k ∧ t.prints[k]? = some p ∧
          s' = (submitPrintTask s p).setWorker i { w with pc := .calling t (k + 1) }) ∨
       (∃ t k, w.pc = .calling t k ∧ t.prints[k]? = none ∧
          s' = { s with executed := s.executed ++ [t] }.setWorker i { w with pc := .waiting })) := by
  unfold worker_loop at h
  cases hw : s.workers[i]? with
  | none => simp [hw] at h
  | some w =>
    refine ⟨w, rfl, ?_⟩
    simp only [hw] at h
    cases hpc : w.pc with
    | waiting =>
      simp only [hpc] at h
      cases hq : s.tasks with
      | nil =>
        cases hstop : s.taskStop <;> simp [hq, hstop, wake, workerIter] at h
        left; simp [h]
      | cons t rest =>
        right; left
        simp [hq, wake, workerIter] at h
        exact ⟨t, rest, rfl, rfl, h.symm⟩
    | calling t k =>
      simp only [hpc] at h
      cases hp : t.prints[k]? with
      | some p =>
        right; right; left
        simp only [hp, Option.some.injEq] at h
        exact ⟨t, k, p, rfl, hp, h.symm⟩
      | none =>
        right; right; right
        simp only [hp, Option.some.injEq] at h
        exact ⟨t, k, rfl, hp, h.symm⟩
    | fault => simp [hpc] at h
    | exited => simp [hpc] at h


/-- Case analysis of a printer step. -/
theorem printerStep_cases {s s' : State} (h : printer_loop s = some s') :
    (s.printerThread.pc = .waiting ∧ s.printStop = true ∧ s.printQueue = [] ∧
        s' = { s with printerThread := { s.printerThread with pc := .exited } }) ∨
    (∃ p rest, s.printerThread.pc = .waiting ∧ s.printQueue = p :: rest ∧
        s' = { s with printQueue := rest,
                      printerThread := { s.printerThread with pc := .calling p } }) ∨
    (∃ p, s.printerThread.pc = .calling p ∧
        s' = { s with printed := s.printed ++ [p],
                      printerThread := { s.printerThread with pc := .waiting } }) := by
  unfold printer_loop at h
  cases hpc : s.printerThread.pc with
  | absent => simp [hpc] at h
  | waiting =>
    simp only [hpc] at h
    cases hq : s.printQueue with
    | nil =>
      cases hstop : s.printStop <;> simp [hq, hstop, wake, printerIter] at h
      left; simp [h]
    | cons p rest =>
      right; left
      simp [hq, wake, printerIter] at h
      exact ⟨p, rest, rfl, rfl, h.symm⟩
  | calling p =>
    right; right
    simp only [hpc, Option.some.injEq] at h
    exact ⟨p, rfl, h.symm⟩
  | fault => simp [hpc] at h
  | exited => simp [hpc] at h

/-- Case analysis of a step of the owner. -/
theorem mainStep_cases {s s' : State} (h : mainStep s = some s') :
    (∃ t rest, s.pc = .client ∧ s.prog = .submitTask t :: rest ∧
        s' = { s with prog := rest, tasks := s.tasks ++ [t],
                      submitted := s.submitted ++ [t] }) ∨
    (∃ p rest, s.pc = .client ∧ s.prog = .submitPrintTask p :: rest ∧
        s' = { submitPrintTask s p with prog := rest, clientPrints := s.clientPrints ++ [p] }) ∨
    (∃ rest, s.pc = .client ∧ s.prog = .shutdown :: rest ∧
        s' = { s with prog := rest, taskStop := true, pc := .joinWorkers 0 }) ∨
    (∃ i, s.pc = .joinWorkers i ∧ s.workers[i]? = none ∧
        s' = { s with printStop := true, pc := .joinPrinter }) ∨
    (∃ i w, s.pc = .joinWorkers i ∧ s.workers[i]? = some w ∧ w.joinable = true ∧
        w.pc = .exited ∧
        s' = { s.setWorker i { w with joinable := false } with pc := .joinWorkers (i + 1) }) ∨
    (∃ i w, s.pc = .joinWorkers i ∧ s.workers[i]? = some w ∧ w.joinable = false ∧
        s' = { s with pc := .joinWorkers (i + 1) }) ∨
    (s.pc = .joinPrinter ∧ s.printerThread.joinable = true ∧ s.printerThread.pc = .exited ∧
        s' = { s with printerThread := { s.printerThread with joinable := false },
                      pc := .client }) ∨
    (s.pc = .joinPrinter ∧ s.printerThread.joinable = false ∧ s' = { s with pc := .client }) := by
  unfold mainStep at h
  cases hpc : s.pc with
  | client =>
    simp only [hpc] at h
    cases hprog : s.prog with
    | nil => simp [hprog] at h
    | cons op rest =>
      cases op with
      | submitTask t =>
        simp only [hprog, submitTask, hpc, Option.some.injEq] at h
        exact Or.inl ⟨t, rest, rfl, rfl, h.symm⟩
      | submitPrintTask p =>
        simp only [hprog, Option.some.injEq] at h
        exact Or.inr (Or.inl ⟨p, rest, rfl, rfl, h.symm⟩)
      | shutdown =>
        simp only [hprog, shutdown, hpc, Option.some.injEq] at h
        exact Or.inr (Or.inr (Or.inl ⟨rest, rfl, rfl, h.symm⟩))
  | joinWorkers i =>
    simp only [hpc, shutdown] at h
    cases hw : s.workers[i]? with
    | none =>
      simp only [hw, Option.some.injEq] at h
      exact Or.inr (Or.inr (Or.inr (Or.inl ⟨i, rfl, hw, h.symm⟩)))
    | some w =>
      simp only [hw] at h
      cases hj : w.joinable with
      | true =>
        rw [if_pos hj] at h
        by_cases he : w.pc = .exited
        · rw [if_pos he, Option.some.injEq] at h
          exact Or.inr (Or.inr (Or.inr (Or.inr (Or.inl ⟨i, w, rfl, hw, hj, he, h.symm⟩))))
        · rw [if_neg he] at h
          exact absurd h (by simp)
      | false =>
        simp only [hj, Bool.false_eq_true, if_false, Option.some.injEq] at h
        exact Or.inr (Or.inr (Or.inr (Or.inr (Or.inr (Or.inl ⟨i, w, rfl, hw, hj, h.symm⟩)))))
  | joinPrinter =>
    simp only [hpc, shutdown] at h
    cases hj : s.printerThread.joinable with
    | true =>
      rw [if_pos hj] at h
      by_cases he : s.printerThread.pc = .exited
      · rw [if_pos he, Option.some.injEq] at h
        exact Or.inr (Or.inr (Or.inr (Or.inr (Or.inr (Or.inr (Or.inl ⟨rfl, rfl, he, h.symm⟩))))))
      · rw [if_neg he] at h
        exact absurd h (by simp)
    | false =>
      simp only [hj, Bool.false_eq_true, if_false, Option.some.injEq] at h
      exact Or.inr (Or.inr (Or.inr (Or.inr (Or.inr (Or.inr (Or.inr ⟨rfl, rfl, h.symm⟩))))))

/-! ## The control invariant is kept by every step -/

theorem ctl_of_eq {s s' : State} (c : Ctl s) (h1 : s'.workers = s.workers)
    (h2 : s'.taskStop = s.taskStop) (h3 : s'.printerThread = s.printerThread)
    (h4 : s'.printStop = s.printStop) (h5 : s'.pc = s.pc) : Ctl s' := by
  constructor <;> simp only [h1, h2, h3, h4, h5]
  · exact c.noFault
  · exact c.joined
  · exact c.exitedStop
  · exact c.pNoFault
  · exact c.pJoined
  · exact c.pAbsent
  · exact c.pExitedStop
  · exact c.joining
  · exact c.pJoining
  · exact c.stopOrder

theorem getElem?_set_joinable {l : List Worker} {i j : Nat} {w w' x : Worker}
    (hw : l[i]? = some w) (hj : w'.joinable = w.joinable) (hx : (l.set i w')[j]? = some x) :
    ∃ y, l[j]? = some y ∧ y.joinable = x.joinable := by
  rw [List.getElem?_set] at hx
  split at hx
  · next hij =>
    subst hij
    split at hx
    · simp at hx; subst hx; exact ⟨w, hw, hj.symm⟩
    · simp at hx
  · exact ⟨x, hx, rfl⟩

theorem ctl_setWorker {s : State} {i : Nat} {w w' : Worker} (c : Ctl s)
    (hw : s.workers[i]? = some w) (hj : w'.joinable = w.joinable) (hf : w'.pc ≠ .fault)
    (he : w'.pc = .exited → s.taskStop = true) (hne : w.pc ≠ .exited) :
    Ctl (s.setWorker i w') := by
  have hmem := mem_of_getElem? hw
  have hjt : w.joinable = true := by
    cases h : w.joinable with
    | true => rfl
    | false => exact absurd (c.joined w hmem h) hne
  constructor <;> simp only [State.setWorker]
  · exact forall_mem_set c.noFault hf
  · exact forall_mem_set c.joined (by simp [hj, hjt])
  · exact forall_mem_set c.exitedStop he
  · exact c.pNoFault
  · exact c.pJoined
  · exact c.pAbsent
  · exact c.pExitedStop
  · intro k hk
    refine ⟨(c.joining k hk).1, fun j x hjk hx => ?_⟩
    obtain ⟨y, hy, hyx⟩ := getElem?_set_joinable hw hj hx
    rw [← hyx]
    exact (c.joining k hk).2 j y hjk hy
  · exact c.pJoining
  · intro hps
    obtain ⟨h1, h2, h3⟩ := c.stopOrder hps
    exact ⟨h1, forall_mem_set h2 (by rw [hj]; exact h2 w hmem), h3⟩

theorem ctl_workerStep {s s' : State} {i : Nat} (c : Ctl s) (h : worker_loop s i = some s') :
    Ctl s' := by
  obtain ⟨w, hw, hcase⟩ := workerStep_cases h
  rcases hcase with ⟨hpc, hstop, hq, rfl⟩ | ⟨t, rest, hpc, hq, rfl⟩ | ⟨t, k, p, hpc, hp, rfl⟩ |
    ⟨t, k, hpc, hp, rfl⟩
  · exact ctl_setWorker c hw rfl (by simp) (fun _ => hstop) (by simp [hpc])
  · exact ctl_setWorker (ctl_of_eq c rfl rfl rfl rfl rfl) hw rfl (by simp) (by simp) (by simp [hpc])
  · exact ctl_setWorker (ctl_of_eq c rfl rfl rfl rfl rfl) hw rfl (by simp) (by simp) (by simp [hpc])
  · exact ctl_setWorker (ctl_of_eq c rfl rfl rfl rfl rfl) hw rfl (by simp) (by simp) (by simp [hpc])

theorem ctl_printerStep {s s' : State} (c : Ctl s) (h : printer_loop s = some s') : Ctl s' := by
  have hj : s.printerThread.pc = .waiting ∨ (∃ p, s.printerThread.pc = .calling p) →
      s.printerThread.joinable = true := by
    intro hpc
    cases hjn : s.printerThread.joinable with
    | true => rfl
    | false =>
      rcases c.pJoined hjn with h1 | h1 <;> rcases hpc with h2 | ⟨p, h2⟩ <;> simp [h1] at h2
  rcases printerStep_cases h with ⟨hpc, hstop, hq, rfl⟩ | ⟨p, rest, hpc, hq, rfl⟩ | ⟨p, hpc, rfl⟩
  · have := hj (Or.inl hpc)
    constructor <;> simp only
    · exact c.noFault
    · exact c.joined
    · exact c.exitedStop
    · simp
    · simp
    · simp
    · simp [hstop]
    · exact c.joining
    · exact c.pJoining
    · exact c.stopOrder
  · have := hj (Or.inl hpc)
    constructor <;> simp only
    · exact c.noFault
    · exact c.joined
    · exact c.exitedStop
    · simp
    · simp [this]
    · simp
    · simp
    · exact c.joining
    · exact c.pJoining
    · exact c.stopOrder
  · have := hj (Or.inr ⟨p, hpc⟩)
    constructor <;> simp only
    · exact c.noFault
    · exact c.joined
    · exact c.exitedStop
    · simp
    · simp [this]
    · simp
    · simp
    · exact c.joining
    · exact c.pJoining
    · exact c.stopOrder

theorem ctl_mainStep {s s' : State} (c : Ctl s) (h : mainStep s = some s') : Ctl s' := by
  rcases mainStep_cases h with ⟨t, rest, hpc, hprog, rfl⟩ | ⟨p, rest, hpc, hprog, rfl⟩ |
    ⟨rest, hpc, hprog, rfl⟩ | ⟨i, hpc, hw, rfl⟩ | ⟨i, w, hpc, hw, hj, he, rfl⟩ |
    ⟨i, w, hpc, hw, hj, rfl⟩ | ⟨hpc, hj, he, rfl⟩ | ⟨hpc, hj, rfl⟩
  · exact ctl_of_eq c rfl rfl rfl rfl rfl
  · exact ctl_of_eq c rfl rfl rfl rfl rfl
  · constructor <;> simp only
    · exact c.noFault
    · exact c.joined
    · simp
    · exact c.pNoFault
    · exact c.pJoined
    · exact c.pAbsent
    · exact c.pExitedStop
    · simp
    · simp
    · intro hps
      obtain ⟨_, h2, h3⟩ := c.stopOrder hps
      simp [hpc] at h3
      exact ⟨trivial, h2, Or.inr h3⟩
  · obtain ⟨hts, hall⟩ := c.joining i hpc
    constructor <;> simp only
    · exact c.noFault
    · exact c.joined
    · exact c.exitedStop
    · exact c.pNoFault
    · exact c.pJoined
    · exact c.pAbsent
    · simp
    · simp
    · simp
    · intro _
      refine ⟨hts, fun x hx => ?_, Or.inl trivial⟩
      obtain ⟨j, hjl, rfl⟩ := List.getElem_of_mem hx
      rw [List.getElem?_eq_none_iff] at hw
      exact hall j _ (by omega) (List.getElem?_eq_getElem hjl)
  · obtain ⟨hts, hall⟩ := c.joining i hpc
    have hmem := mem_of_getElem? hw
    constructor <;> simp only [State.setWorker]
    · exact forall_mem_set c.noFault (by simp [he])
    · exact forall_mem_set c.joined (by simp [he])
    · exact forall_mem_set c.exitedStop (fun _ => hts)
    · exact c.pNoFault
    · exact c.pJoined
    · exact c.pAbsent
    · exact c.pExitedStop
    · intro k hk
      simp at hk; subst hk
      refine ⟨hts, fun j x hjk hx => ?_⟩
      rw [List.getElem?_set] at hx
      split at hx
      · split at hx
        · simp at hx; rw [← hx]
        · simp at hx
      · next hne => exact hall j x (by omega) hx
    · simp
    · intro hps
      obtain ⟨_, h2, h3⟩ := c.stopOrder hps
      exact absurd (h2 w hmem) (by simp [hj])
  · obtain ⟨hts, hall⟩ := c.joining i hpc
    constructor <;> simp only
    · exact c.noFault
    · exact c.joined
    · exact c.exitedStop
    · exact c.pNoFault
    · exact c.pJoined
    · exact c.pAbsent
    · exact c.pExitedStop
    · intro k hk
      simp at hk; subst hk
      refine ⟨hts, fun j x hjk hx => ?_⟩
      by_cases hji : j = i
      · subst hji; rw [hw] at hx; simp at hx; rw [← hx]; exact hj
      · exact hall j x (by omega) hx
    · simp
    · intro hps
      obtain ⟨h1, h2, h3⟩ := c.stopOrder hps
      simp [hpc] at h3
      exact ⟨h1, h2, Or.inr h3⟩
  · have hps := c.pJoining hpc
    constructor <;> simp only
    · exact c.noFault
    · exact c.joined
    · exact c.exitedStop
    · simp [he]
    · simp [he]
    · simp [he]
    · simp [hps]
    · simp
    · simp
    · intro _
      obtain ⟨h1, h2, _⟩ := c.stopOrder hps
      exact ⟨h1, h2, Or.inr trivial⟩
  · have hps := c.pJoining hpc
    constructor <;> simp only
    · exact c.noFault
    · exact c.joined
    · exact c.exitedStop
    · exact c.pNoFault
    · exact c.pJoined
    · exact c.pAbsent
    · exact c.pExitedStop
    · simp
    · simp
    · intro _
      obtain ⟨h1, h2, _⟩ := c.stopOrder hps
      exact ⟨h1, h2, Or.inr hj⟩

theorem ctl_step {s s' : State} {l : Thr} (c : Ctl s) (h : step s l = some s') : Ctl s' := by
  cases l with
  | main => exact ctl_mainStep c h
  | worker i => exact ctl_workerStep c h
  | printer => exact ctl_printerStep c h

/-! ## The log invariant is kept by every step -/

theorem single_of_length_le_one {α : Type} {l : List α} {i : Nat} {a : α} (hl : l.length ≤ 1)
    (h : l[i]? = some a) : l = [a] ∧ i = 0 := by
  match l, hl, h with
  | [x], _, h =>
    cases i with
    | zero => simp at h; simp [h]
    | succ i => simp at h

theorem logs_workerStep {s s' : State} {i : Nat} (c : Logs s) (h : worker_loop s i = some s') :
    Logs s' := by
  obtain ⟨w, hw, hcase⟩ := workerStep_cases h
  have hmem := mem_of_getElem? hw
  rcases hcase with ⟨hpc, hstop, hq, rfl⟩ | ⟨t, rest, hpc, hq, rfl⟩ | ⟨t, k, p, hpc, hp, rfl⟩ |
    ⟨t, k, hpc, hp, rfl⟩
  · have hin : inflight (s.setWorker i { w with pc := .exited }) = inflight s :=
      filterMap_set_same _ hw (by simp [hpc, WorkerPc.cur])
    constructor
    · exact c.fifo
    · rw [hin]; exact c.once
    · intro hl; rw [hin]; exact c.inOrder (by simpa [State.setWorker] using hl)
    · exact c.pfifo
    · exact c.cprints
    · exact c.wprints
    · exact forall_mem_set c.wprintsNow (by simp)
  · have hin : ((s.workers.set i { w with pc := .calling t 0 }).filterMap
        fun w => w.pc.cur).Perm (t :: inflight s) :=
      filterMap_set_add _ hw (by simp [hpc, WorkerPc.cur]) (by simp [WorkerPc.cur])
    constructor
    · have := c.fifo
      simp only [State.setWorker, List.append_assoc, List.singleton_append]
      rw [hq] at this; exact this
    · simp only [State.setWorker, inflight]
      refine (List.Perm.append_left _ hin).trans ?_
      refine (List.perm_middle).trans ?_
      exact ((c.once.cons t).trans (List.perm_append_singleton t s.started).symm)
    · intro hl
      simp only [State.setWorker, List.length_set] at hl
      obtain ⟨hws, rfl⟩ := single_of_length_le_one hl hw
      have := c.inOrder hl
      simp only [inflight, hws, List.filterMap_cons, hpc, WorkerPc.cur, List.filterMap_nil,
        List.append_nil] at this
      simp [State.setWorker, inflight, hws, WorkerPc.cur, this]
    · exact c.pfifo
    · exact c.cprints
    · exact c.wprints
    · exact forall_mem_set c.wprintsNow (by simp)
  · have hin : inflight ((submitPrintTask s p).setWorker i { w with pc := .calling t (k + 1) })
        = inflight s :=
      filterMap_set_same _ hw (by simp [hpc, WorkerPc.cur])
    have hmono : ∀ q, q ∈ s.printSubmitted → q ∈ s.printSubmitted ++ [p] := fun q hq =>
      List.mem_append_left _ hq
    constructor
    · exact c.fifo
    · rw [hin]; exact c.once
    · intro hl; rw [hin]; exact c.inOrder (by simpa [State.setWorker, submitPrintTask] using hl)
    · simp only [State.setWorker, submitPrintTask, pInflight, ← c.pfifo, List.append_assoc]
    · exact c.cprints.trans (List.sublist_append_left _ _)
    · exact fun t ht q hq => hmono q (c.wprints t ht q hq)
    · refine forall_mem_set (fun x hx t' k' hpc' q hq => hmono q (c.wprintsNow x hx t' k' hpc' q hq))
        ?_
      intro t' k' hpc' q hq
      simp only [WorkerPc.calling.injEq] at hpc'
      obtain ⟨rfl, rfl⟩ := hpc'
      have hk : k < t.prints.length := by
        by_contra hk
        rw [List.getElem?_eq_none (by omega)] at hp
        simp at hp
      rw [List.take_succ, hp] at hq
      simp only [Option.toList_some, List.mem_append, List.mem_singleton] at hq
      rcases hq with hq | rfl
      · exact hmono q (c.wprintsNow w hmem t k hpc q hq)
      · simp [State.setWorker, submitPrintTask]
  · have hin : (t :: (s.workers.set i { w with pc := .waiting }).filterMap
        fun w => w.pc.cur).Perm (inflight s) :=
      filterMap_set_del _ hw (by simp [hpc, WorkerPc.cur]) (by simp [WorkerPc.cur])
    constructor
    · exact c.fifo
    · simp only [State.setWorker, inflight, List.append_assoc, List.singleton_append]
      exact (List.Perm.append_left _ hin).trans c.once
    · intro hl
      simp only [State.setWorker, List.length_set] at hl
      obtain ⟨hws, rfl⟩ := single_of_length_le_one hl hw
      have := c.inOrder hl
      simp only [inflight, hws, List.filterMap_cons, hpc, WorkerPc.cur, List.filterMap_nil] at this
      simp [State.setWorker, inflight, hws, WorkerPc.cur, this]
    · exact c.pfifo
    · exact c.cprints
    · intro t' ht' q hq
      simp only [State.setWorker, List.mem_append, List.mem_singleton] at ht'
      rcases ht' with ht' | rfl
      · exact c.wprints t' ht' q hq
      · have := c.wprintsNow w hmem t' k hpc q
        rw [List.getElem?_eq_none_iff] at hp
        rw [List.take_of_length_le hp] at this
        exact this hq
    · exact forall_mem_set c.wprintsNow (by simp)


theorem logs_printerStep {s s' : State} (c : Logs s) (h : printer_loop s = some s') :
    Logs s' := by
  rcases printerStep_cases h with ⟨hpc, hstop, hq, rfl⟩ | ⟨p, rest, hpc, hq, rfl⟩ | ⟨p, hpc, rfl⟩
  · refine ⟨c.fifo, c.once, c.inOrder, ?_, c.cprints, c.wprints, c.wprintsNow⟩
    have := c.pfifo
    simp only [pInflight, hpc] at this
    simpa [pInflight] using this
  · refine ⟨c.fifo, c.once, c.inOrder, ?_, c.cprints, c.wprints, c.wprintsNow⟩
    have := c.pfifo
    simp only [pInflight, hpc, hq] at this
    simpa [pInflight] using this
  · refine ⟨c.fifo, c.once, c.inOrder, ?_, c.cprints, c.wprints, c.wprintsNow⟩
    have := c.pfifo
    simp only [pInflight, hpc] at this
    simpa [pInflight] using this

theorem logs_mainStep {s s' : State} (c : Logs s) (h : mainStep s = some s') : Logs s' := by
  rcases mainStep_cases h with ⟨t, rest, hpc, hprog, rfl⟩ | ⟨p, rest, hpc, hprog, rfl⟩ |
    ⟨rest, hpc, hprog, rfl⟩ | ⟨i, hpc, hw, rfl⟩ | ⟨i, w, hpc, hw, hj, he, rfl⟩ |
    ⟨i, w, hpc, hw, hj, rfl⟩ | ⟨hpc, hj, he, rfl⟩ | ⟨hpc, hj, rfl⟩
  · refine ⟨?_, c.once, c.inOrder, c.pfifo, c.cprints, c.wprints, c.wprintsNow⟩
    simp only [← c.fifo, List.append_assoc]
  · have hmono : ∀ q, q ∈ s.printSubmitted → q ∈ s.printSubmitted ++ [p] := fun q hq =>
      List.mem_append_left _ hq
    refine ⟨c.fifo, c.once, c.inOrder, ?_, ?_, ?_, ?_⟩
    · simp only [submitPrintTask, pInflight, ← c.pfifo, List.append_assoc]
    · exact c.cprints.append (List.Sublist.refl _)
    · exact fun t ht q hq => hmono q (c.wprints t ht q hq)
    · exact fun x hx t k hpc' q hq => hmono q (c.wprintsNow x hx t k hpc' q hq)
  · exact ⟨c.fifo, c.once, c.inOrder, c.pfifo, c.cprints, c.wprints, c.wprintsNow⟩
  · exact ⟨c.fifo, c.once, c.inOrder, c.pfifo, c.cprints, c.wprints, c.wprintsNow⟩
  · have hin : (s.workers.set i { w with joinable := false }).filterMap (fun w => w.pc.cur)
        = inflight s := filterMap_set_same _ hw rfl
    refine ⟨c.fifo, ?_, ?_, c.pfifo, c.cprints, c.wprints, ?_⟩
    · simp only [State.setWorker, inflight, hin]; exact c.once
    · intro hl
      simp only [State.setWorker, inflight, hin]
      exact c.inOrder (by simpa [State.setWorker] using hl)
    · exact forall_mem_set c.wprintsNow (by simp [he])
  · exact ⟨c.fifo, c.once, c.inOrder, c.pfifo, c.cprints, c.wprints, c.wprintsNow⟩
  · refine ⟨c.fifo, c.once, c.inOrder, ?_, c.cprints, c.wprints, c.wprintsNow⟩
    have := c.pfifo
    simp only [pInflight, he] at this
    simpa [pInflight, he] using this
  · exact ⟨c.fifo, c.once, c.inOrder, c.pfifo, c.cprints, c.wprints, c.wprintsNow⟩

theorem logs_step {s s' : State} {l : Thr} (c : Logs s) (h : step s l = some s') : Logs s' := by
  cases l with
  | main => exact logs_mainStep c h
  | worker i => exact logs_workerStep c h
  | printer => exact logs_printerStep c h

/-! ## Reachability -/

theorem Reach.refl (s : State) : Reach s s := ⟨[], rfl⟩

theorem Reach.tail {s s' s'' : State} {l : Thr} (h : Reach s s') (hs : step s' l = some s'') :
    Reach s s'' := by
  obtain ⟨sched, hrun⟩ := h
  refine ⟨sched ++ [l], ?_⟩
  induction sched generalizing s with
  | nil => simp [run] at hrun; subst hrun; simp [run, hs]
  | cons a as ih =>
    simp only [run, List.cons_append] at hrun ⊢
    cases ha : step s a with
    | none => simp [ha] at hrun
    | some s1 =>
      simp only [ha, Option.some_bind] at hrun ⊢
      exact ih hrun

theorem Reach.trans {s s' s'' : State} (h : Reach s s') (h' : Reach s' s'') : Reach s s'' := by
  obtain ⟨sched, hrun⟩ := h'
  induction sched generalizing s' with
  | nil => simp [run] at hrun; subst hrun; exact h
  | cons a as ih =>
    simp only [run] at hrun
    cases ha : step s' a with
    | none => simp [ha] at hrun
    | some s1 =>
      simp only [ha, Option.some_bind] at hrun
      exact ih (h.tail ha) hrun

/-- Induction along a schedule: a property of the start state that every step keeps holds in
every state the schedule leads to. -/
theorem run_induction {P : State → Prop} (hstep : ∀ s l s', P s → step s l = some s' → P s')
    {s s' : State} {sched : List Thr} (h0 : P s) (h : run s sched = some s') : P s' := by
  induction sched generalizing s with
  | nil => simp [run] at h; subst h; exact h0
  | cons a as ih =>
    simp only [run] at h
    cases ha : step s a with
    | none => simp [ha] at h
    | some s1 =>
      simp only [ha, Option.some_bind] at h
      exact ih (hstep s a s1 h0 ha) h

theorem Reach.induction {P : State → Prop} (hstep : ∀ s l s', P s → step s l = some s' → P s')
    {s s' : State} (h0 : P s) (h : Reach s s') : P s' := by
  obtain ⟨sched, hrun⟩ := h
  exact run_induction hstep h0 hrun

/-! ## Initial states -/

theorem ctl_init (n : Nat) (p : Printer) (prog : List Op)
    (hp : p = ⟨.waiting, true⟩ ∨ p = ⟨.absent, false⟩) : Ctl (construct n p prog) := by
  constructor <;> simp only [construct]
  · intro w hw; rw [List.eq_of_mem_replicate hw]; simp
  · intro w hw; rw [List.eq_of_mem_replicate hw]; simp
  · intro w hw; rw [List.eq_of_mem_replicate hw]; simp
  · rcases hp with rfl | rfl <;> simp
  · rcases hp with rfl | rfl <;> simp
  · rcases hp with rfl | rfl <;> simp
  · rcases hp with rfl | rfl <;> simp
  · simp
  · simp
  · simp

theorem logs_init (n : Nat) (p : Printer) (prog : List Op)
    (hp : p = ⟨.waiting, true⟩ ∨ p = ⟨.absent, false⟩) : Logs (construct n p prog) := by
  have hin : inflight (construct n p prog) = [] := by
    simp only [inflight, construct, List.filterMap_eq_nil_iff]
    intro w hw; rw [List.eq_of_mem_replicate hw]; rfl
  constructor
  · rfl
  · rw [hin]; exact List.Perm.refl _
  · intro _; rw [hin]; rfl
  · rcases hp with rfl | rfl <;> rfl
  · exact List.Sublist.refl _
  · intro t ht; simp [construct] at ht
  · intro w hw
    simp only [construct] at hw
    rw [List.eq_of_mem_replicate hw]; simp

/-! ## Invariants that depend on the owner's program -/

theorem workerStep_frame {s s' : State} {i : Nat} (h : worker_loop s i = some s') :
    s'.prog = s.prog ∧ s'.pc = s.pc ∧ s'.taskStop = s.taskStop ∧ s'.printStop = s.printStop ∧
      s'.printerThread = s.printerThread ∧ s'.submitted = s.submitted ∧
      s'.clientPrints = s.clientPrints ∧ s'.printed = s.printed ∧
      s'.workers.length = s.workers.length := by
  obtain ⟨w, hw, hcase⟩ := workerStep_cases h
  rcases hcase with ⟨hpc, hstop, hq, rfl⟩ | ⟨t, rest, hpc, hq, rfl⟩ | ⟨t, k, p, hpc, hp, rfl⟩ |
    ⟨t, k, hpc, hp, rfl⟩ <;> simp [State.setWorker, submitPrintTask]

theorem printerStep_frame {s s' : State} (h : printer_loop s = some s') :
    s'.prog = s.prog ∧ s'.pc = s.pc ∧ s'.taskStop = s.taskStop ∧ s'.printStop = s.printStop ∧
      s'.workers = s.workers ∧ s'.tasks = s.tasks ∧ s'.submitted = s.submitted ∧
      s'.started = s.started ∧ s'.executed = s.executed ∧
      s'.printSubmitted = s.printSubmitted ∧ s'.clientPrints = s.clientPrints ∧
      s'.printerThread.joinable = s.printerThread.joinable := by
  rcases printerStep_cases h with ⟨hpc, hstop, hq, rfl⟩ | ⟨p, rest, hpc, hq, rfl⟩ |
    ⟨p, hpc, rfl⟩ <;> simp

theorem mainStep_frame {s s' : State} (h : mainStep s = some s') :
    s'.started = s.started ∧ s'.executed = s.executed ∧ s'.printed = s.printed ∧
      s'.printerThread.pc = s.printerThread.pc ∧ s'.workers.length = s.workers.length := by
  rcases mainStep_cases h with ⟨t, rest, hpc, hprog, rfl⟩ | ⟨p, rest, hpc, hprog, rfl⟩ |
    ⟨rest, hpc, hprog, rfl⟩ | ⟨i, hpc, hw, rfl⟩ | ⟨i, w, hpc, hw, hj, he, rfl⟩ |
    ⟨i, w, hpc, hw, hj, rfl⟩ | ⟨hpc, hj, he, rfl⟩ | ⟨hpc, hj, rfl⟩ <;>
    simp [State.setWorker, submitPrintTask]

theorem sent_step {prog0 : List Op} {s s' : State} {l : Thr} (c : Sent prog0 s)
    (h : step s l = some s') : Sent prog0 s' := by
  cases l with
  | worker i =>
    obtain ⟨h1, _, _, _, _, h2, h3, _⟩ := workerStep_frame h
    exact ⟨by rw [h1, h2]; exact c.tasks, by rw [h1, h3]; exact c.prints⟩
  | printer =>
    obtain ⟨h1, _, _, _, _, _, h2, _, _, _, h3, _⟩ := printerStep_frame h
    exact ⟨by rw [h1, h2]; exact c.tasks, by rw [h1, h3]; exact c.prints⟩
  | main =>
    have h1 := c.tasks
    have h2 := c.prints
    rcases mainStep_cases h with ⟨t, rest, hpc, hprog, rfl⟩ | ⟨p, rest, hpc, hprog, rfl⟩ |
      ⟨rest, hpc, hprog, rfl⟩ | ⟨i, hpc, hw, rfl⟩ | ⟨i, w, hpc, hw, hj, he, rfl⟩ |
      ⟨i, w, hpc, hw, hj, rfl⟩ | ⟨hpc, hj, he, rfl⟩ | ⟨hpc, hj, rfl⟩
    · rw [hprog] at h1 h2
      exact ⟨by simpa [tasksOf] using h1, by simpa [printsOf] using h2⟩
    · rw [hprog] at h1 h2
      exact ⟨by simpa [tasksOf, submitPrintTask] using h1,
        by simpa [printsOf, submitPrintTask] using h2⟩
    · rw [hprog] at h1 h2
      exact ⟨by simpa [tasksOf] using h1, by simpa [printsOf] using h2⟩
    · exact ⟨h1, h2⟩
    · exact ⟨h1, h2⟩
    · exact ⟨h1, h2⟩
    · exact ⟨h1, h2⟩
    · exact ⟨h1, h2⟩

theorem sent_init (n : Nat) (p : Printer) (prog : List Op) :
    Sent prog (construct n p prog) := ⟨rfl, rfl⟩

theorem pending_step {s s' : State} {l : Thr} (c : Pending s) (k : Ctl s)
    (h : step s l = some s') : Pending s' := by
  cases l with
  | worker i =>
    obtain ⟨h1, h2, h3, h4, _⟩ := workerStep_frame h
    exact ⟨by rw [h1, h3]; exact c.first, by rw [h1, h2, h4]; exact c.second⟩
  | printer =>
    obtain ⟨h1, h2, h3, h4, _⟩ := printerStep_frame h
    exact ⟨by rw [h1, h3]; exact c.first, by rw [h1, h2, h4]; exact c.second⟩
  | main =>
    have h1 := c.first
    have h2 := c.second
    rcases mainStep_cases h with ⟨t, rest, hpc, hprog, rfl⟩ | ⟨p, rest, hpc, hprog, rfl⟩ |
      ⟨rest, hpc, hprog, rfl⟩ | ⟨i, hpc, hw, rfl⟩ | ⟨i, w, hpc, hw, hj, he, rfl⟩ |
      ⟨i, w, hpc, hw, hj, rfl⟩ | ⟨hpc, hj, he, rfl⟩ | ⟨hpc, hj, rfl⟩
    · rw [hprog, hpc] at h2; rw [hprog] at h1
      simp only [List.mem_cons, reduceCtorEq, false_or, exists_false, or_false] at h1 h2
      exact ⟨h1, fun hps => Or.inl (h2 hps)⟩
    · rw [hprog, hpc] at h2; rw [hprog] at h1
      simp only [List.mem_cons, reduceCtorEq, false_or, exists_false, or_false] at h1 h2
      exact ⟨h1, fun hps => Or.inl (h2 hps)⟩
    · exact ⟨by simp, by simp⟩
    · exact ⟨by simp [(k.joining i hpc).1], by simp⟩
    · exact ⟨by simp [State.setWorker, (k.joining i hpc).1], by simp⟩
    · exact ⟨by simp [(k.joining i hpc).1], by simp⟩
    · have := k.pJoining hpc
      exact ⟨by simp [(k.stopOrder this).1], by simp [this]⟩
    · have := k.pJoining hpc
      exact ⟨by simp [(k.stopOrder this).1], by simp [this]⟩

theorem pending_init (n : Nat) (p : Printer) (prog : List Op) (h : Op.shutdown ∈ prog) :
    Pending (construct n p prog) := ⟨fun _ => h, fun _ => Or.inl h⟩

theorem shutdownsLast_tail {op : Op} {rest : List Op} (h : shutdownsLast (op :: rest)) :
    shutdownsLast rest := by
  cases op with
  | submitTask t => exact h
  | submitPrintTask p => exact h
  | shutdown =>
    simp only [shutdownsLast] at h
    cases rest with
    | nil => trivial
    | cons a as =>
      have ha := h a (List.mem_cons_self _ _)
      subst ha
      simp only [shutdownsLast]
      exact fun op hop => h op (List.mem_cons_of_mem _ hop)

theorem shutdownsLast_append (subs rest : List Op) (h : Op.shutdown ∉ subs)
    (hr : ∀ op ∈ rest, op = .shutdown) : shutdownsLast (subs ++ rest) := by
  induction subs with
  | nil =>
    cases rest with
    | nil => trivial
    | cons a as =>
      have ha := hr a (List.mem_cons_self _ _)
      subst ha
      exact fun op hop => hr op (List.mem_cons_of_mem _ hop)
  | cons a as ih =>
    have has : Op.shutdown ∉ as := fun hm => h (List.mem_cons_of_mem _ hm)
    cases a with
    | submitTask t => exact ih has
    | submitPrintTask p => exact ih has
    | shutdown => exact absurd (List.mem_cons_self _ _) h

theorem orderly_step {s s' : State} {l : Thr} (c : Orderly s) (k : Ctl s)
    (h : step s l = some s') : Orderly s' := by
  have hjoin : ∀ w ∈ s.workers, w.pc ≠ .exited → s.printerThread.pc ≠ .exited := by
    intro w hw hne hpe
    have hps := k.pExitedStop hpe
    exact hne (k.joined w hw ((k.stopOrder hps).2.1 w hw))
  cases l with
  | worker i =>
    obtain ⟨h1, h2, h3, h4, h5, _⟩ := workerStep_frame h
    obtain ⟨w, hw, hcase⟩ := workerStep_cases h
    have hmem := mem_of_getElem? hw
    refine ⟨by rw [h1]; exact c.last, by rw [h1, h3]; exact c.stopped, ?_, ?_⟩
    · rcases hcase with ⟨hpc, hstop, hq, rfl⟩ | ⟨t, rest, hpc, hq, rfl⟩ |
        ⟨t, k, p, hpc, hp, rfl⟩ | ⟨t, k, hpc, hp, rfl⟩
      · exact fun _ _ _ => hq
      · refine forall_mem_set (fun x hx hxe => ?_) (by simp)
        have := c.drained x hx hxe
        rw [hq] at this; simp at this
      · exact forall_mem_set c.drained (by simp)
      · exact forall_mem_set c.drained (by simp)
    · rw [h5]
      rcases hcase with ⟨hpc, hstop, hq, rfl⟩ | ⟨t, rest, hpc, hq, rfl⟩ |
        ⟨t, k, p, hpc, hp, rfl⟩ | ⟨t, k, hpc, hp, rfl⟩
      · exact c.pDrained
      · exact c.pDrained
      · exact fun hpe => absurd hpe (hjoin w hmem (by simp [hpc]))
      · exact c.pDrained
  | printer =>
    obtain ⟨h1, h2, h3, h4, h5, h6, _⟩ := printerStep_frame h
    refine ⟨by rw [h1]; exact c.last, by rw [h1, h3]; exact c.stopped,
      by rw [h5, h6]; exact c.drained, ?_⟩
    rcases printerStep_cases h with ⟨hpc, hstop, hq, rfl⟩ | ⟨p, rest, hpc, hq, rfl⟩ |
      ⟨p, hpc, rfl⟩
    · exact fun _ => hq
    · simp
    · simp
  | main =>
    rcases mainStep_cases h with ⟨t, rest, hpc, hprog, rfl⟩ | ⟨p, rest, hpc, hprog, rfl⟩ |
      ⟨rest, hpc, hprog, rfl⟩ | ⟨i, hpc, hw, rfl⟩ | ⟨i, w, hpc, hw, hj, he, rfl⟩ |
      ⟨i, w, hpc, hw, hj, rfl⟩ | ⟨hpc, hj, he, rfl⟩ | ⟨hpc, hj, rfl⟩
    · have hl := c.last
      rw [hprog] at hl
      have hts : s.taskStop = false := by
        cases hs : s.taskStop with
        | false => rfl
        | true =>
          have := c.stopped hs (.submitTask t) (by simp [hprog])
          simp at this
      refine ⟨shutdownsLast_tail hl, ?_, ?_, c.pDrained⟩
      · simp [hts]
      · intro w hw hwe
        have := k.exitedStop w hw hwe
        simp [hts] at this
    · have hl := c.last
      rw [hprog] at hl
      have hts : s.taskStop = false := by
        cases hs : s.taskStop with
        | false => rfl
        | true =>
          have := c.stopped hs (.submitPrintTask p) (by simp [hprog])
          simp at this
      refine ⟨shutdownsLast_tail hl, ?_, c.drained, ?_⟩
      · simp [submitPrintTask, hts]
      · intro hpe
        have := (k.stopOrder (k.pExitedStop hpe)).1
        simp [hts] at this
    · have hl := c.last
      rw [hprog] at hl
      exact ⟨shutdownsLast_tail hl, fun _ => hl, c.drained, c.pDrained⟩
    · exact ⟨c.last, c.stopped, c.drained, c.pDrained⟩
    · exact ⟨c.last, c.stopped, forall_mem_set c.drained (fun _ => c.drained w
        (mem_of_getElem? hw) he), c.pDrained⟩
    · exact ⟨c.last, c.stopped, c.drained, c.pDrained⟩
    · exact ⟨c.last, c.stopped, c.drained, fun _ => c.pDrained he⟩
    · exact ⟨c.last, c.stopped, c.drained, c.pDrained⟩

theorem orderly_init (n : Nat) (p : Printer) (prog : List Op) (h : shutdownsLast prog) :
    Orderly (construct n p prog) := by
  refine ⟨h, by simp [construct], ?_, fun _ => rfl⟩
  intro w hw
  simp only [construct] at hw
  rw [List.eq_of_mem_replicate hw]; simp

/-! ## Termination measure and absence of deadlock -/

theorem sum_map_set {α : Type} (f : α → Nat) {l : List α} {i : Nat} {a b : α}
    (h : l[i]? = some a) : ((l.set i b).map f).sum + f a = (l.map f).sum + f b := by
  induction l generalizing i with
  | nil => simp at h
  | cons x xs ih =>
    cases i with
    | zero => simp at h; subst h; simp; omega
    | succ i =>
      simp at h
      have := ih h
      simp only [List.set_cons_succ, List.map_cons, List.sum_cons]
      omega

theorem sum_cost_set {l : List Worker} {i : Nat} {a b : Worker} (x y : Nat)
    (h : l[i]? = some a) (ha : a.pc.cost = x) (hb : b.pc.cost = y) :
    ((l.set i b).map fun w => w.pc.cost).sum + x = (l.map fun w => w.pc.cost).sum + y := by
  subst ha hb
  exact sum_map_set (fun w => w.pc.cost) h

theorem measure_workerStep {s s' : State} {i : Nat} (h : worker_loop s i = some s') :
    measure s' + 1 = measure s := by
  obtain ⟨w, hw, hcase⟩ := workerStep_cases h
  rcases hcase with ⟨hpc, hstop, hq, rfl⟩ | ⟨t, rest, hpc, hq, rfl⟩ | ⟨t, k, p, hpc, hp, rfl⟩ |
    ⟨t, k, hpc, hp, rfl⟩
  · have := sum_cost_set (b := { w with pc := .exited }) 1 0 hw (by rw [hpc]; rfl) rfl
    simp only [measure, State.setWorker, List.length_set]
    omega
  · have := sum_cost_set (b := { w with pc := .calling t 0 }) 1 (2 + 3 * t.prints.length) hw
      (by rw [hpc]; rfl) rfl
    simp only [measure, State.setWorker, List.length_set, hq, List.map_cons, List.sum_cons,
      WorkItem.cost]
    omega
  · have := sum_cost_set (b := { w with pc := .calling t (k + 1) })
      (2 + 3 * (t.prints.length - k)) (2 + 3 * (t.prints.length - (k + 1))) hw
      (by rw [hpc]; rfl) rfl
    have hk : k < t.prints.length := by
      by_contra hk
      rw [List.getElem?_eq_none (by omega)] at hp
      simp at hp
    simp only [measure, State.setWorker, submitPrintTask, List.length_set, List.length_append,
      List.length_singleton]
    omega
  · have := sum_cost_set (b := { w with pc := .waiting }) (2 + 3 * (t.prints.length - k)) 1 hw
      (by rw [hpc]; rfl) rfl
    rw [List.getElem?_eq_none_iff] at hp
    simp only [measure, State.setWorker, List.length_set]
    omega

theorem measure_printerStep {s s' : State} (h : printer_loop s = some s') :
    measure s' + 1 = measure s := by
  rcases printerStep_cases h with ⟨hpc, hstop, hq, rfl⟩ | ⟨p, rest, hpc, hq, rfl⟩ | ⟨p, hpc, rfl⟩
  · simp only [measure, hpc, PrinterPc.cost]
  · simp only [measure, hpc, hq, PrinterPc.cost, List.length_cons]
    omega
  · simp only [measure, hpc, PrinterPc.cost]

theorem measure_mainStep {s s' : State} (h : mainStep s = some s') :
    measure s' + 1 = measure s := by
  rcases mainStep_cases h with ⟨t, rest, hpc, hprog, rfl⟩ | ⟨p, rest, hpc, hprog, rfl⟩ |
    ⟨rest, hpc, hprog, rfl⟩ | ⟨i, hpc, hw, rfl⟩ | ⟨i, w, hpc, hw, hj, he, rfl⟩ |
    ⟨i, w, hpc, hw, hj, rfl⟩ | ⟨hpc, hj, he, rfl⟩ | ⟨hpc, hj, rfl⟩
  · simp only [measure, hpc, hprog, List.map_cons, List.sum_cons, Op.cost, List.map_append,
      List.sum_append, List.map_nil, List.sum_nil]
    omega
  · simp only [measure, submitPrintTask, hpc, hprog, List.map_cons, List.sum_cons, Op.cost,
      List.length_append, List.length_singleton]
    omega
  · simp only [measure, hpc, hprog, List.map_cons, List.sum_cons, Op.cost, MainPc.cost]
    omega
  · rw [List.getElem?_eq_none_iff] at hw
    simp only [measure, hpc, MainPc.cost]
    omega
  · have := sum_cost_set (b := { w with joinable := false }) 0 0 hw (by rw [he]; rfl)
      (by show w.pc.cost = 0; rw [he]; rfl)
    have hi : i < s.workers.length := by
      rw [List.getElem?_eq_some] at hw; exact hw.1
    simp only [measure, State.setWorker, List.length_set, hpc, MainPc.cost]
    omega
  · have hi : i < s.workers.length := by
      rw [List.getElem?_eq_some] at hw; exact hw.1
    simp only [measure, hpc, MainPc.cost]
    omega
  · simp only [measure, hpc, MainPc.cost]
    omega
  · simp only [measure, hpc, MainPc.cost]
    omega

/-- Every step uses up exactly one unit of the measure. -/
theorem measure_step {s s' : State} {l : Thr} (h : step s l = some s') :
    measure s' + 1 = measure s := by
  cases l with
  | main => exact measure_mainStep h
  | worker i => exact measure_workerStep h
  | printer => exact measure_printerStep h

theorem measure_run {s s' : State} {sched : List Thr} (h : run s sched = some s') :
    measure s' + sched.length = measure s := by
  induction sched generalizing s with
  | nil => simp [run] at h; subst h; rfl
  | cons a as ih =>
    simp only [run] at h
    cases ha : step s a with
    | none => simp [ha] at h
    | some s1 =>
      simp only [ha, Option.some_bind] at h
      have := ih h
      have := measure_step ha
      simp only [List.length_cons]
      omega

/-- No deadlock: in a state that satisfies the control invariant, some thread can take a step
unless the owner has made all its calls and the last one has returned. -/
theorem progress {s : State} (c : Ctl s) (hnf : s.finished = false) :
    ∃ l s', step s l = some s' := by
  cases hpc : s.pc with
  | client =>
    refine ⟨.main, ?_⟩
    cases hprog : s.prog with
    | nil => simp [State.finished, hpc, hprog] at hnf
    | cons op rest =>
      cases op <;> simp [step, mainStep, shutdown, hpc, hprog]
  | joinWorkers i =>
    have hts := (c.joining i hpc).1
    cases hw : s.workers[i]? with
    | none => exact ⟨.main, by simp [step, mainStep, shutdown, hpc, hw]⟩
    | some w =>
      cases hj : w.joinable with
      | false => exact ⟨.main, by simp [step, mainStep, shutdown, hpc, hw, hj]⟩
      | true =>
        cases hwpc : w.pc with
        | exited => exact ⟨.main, by simp [step, mainStep, shutdown, hpc, hw, hj, hwpc]⟩
        | fault => exact absurd hwpc (c.noFault w (mem_of_getElem? hw))
        | waiting =>
          refine ⟨.worker i, ?_⟩
          cases hq : s.tasks <;> simp [step, worker_loop, hw, hwpc, wake, workerIter, hts, hq]
        | calling t k =>
          refine ⟨.worker i, ?_⟩
          cases hp : t.prints[k]? <;> simp [step, worker_loop, hw, hwpc, hp]
  | joinPrinter =>
    have hps := c.pJoining hpc
    cases hj : s.printerThread.joinable with
    | false => exact ⟨.main, by simp [step, mainStep, shutdown, hpc, hj]⟩
    | true =>
      cases hppc : s.printerThread.pc with
      | exited => exact ⟨.main, by simp [step, mainStep, shutdown, hpc, hj, hppc]⟩
      | fault => exact absurd hppc c.pNoFault
      | absent => have := c.pAbsent hppc; simp [hj] at this
      | waiting =>
        refine ⟨.printer, ?_⟩
        cases hq : s.printQueue <;> simp [step, printer_loop, hppc, wake, printerIter, hps, hq]
      | calling p => exact ⟨.printer, by simp [step, printer_loop, hppc]⟩

/-! ## Reachable states -/

theorem initial_construct {prog : List Op} {s0 : State} (h : Initial prog s0) :
    ∃ n p, (p = ⟨.waiting, true⟩ ∨ p = ⟨.absent, false⟩) ∧ s0 = construct n p prog := by
  rcases h with ⟨h, rfl⟩ | ⟨n, rfl⟩
  · exact ⟨defaultThreads h, _, Or.inl rfl, rfl⟩
  · exact ⟨n, _, Or.inr rfl, rfl⟩

theorem ctl_reach {prog : List Op} {s0 s : State} (h0 : Initial prog s0) (h : Reach s0 s) :
    Ctl s := by
  obtain ⟨n, p, hp, rfl⟩ := initial_construct h0
  exact Reach.induction (fun _ _ _ c hs => ctl_step c hs) (ctl_init n p prog hp) h

theorem logs_reach {prog : List Op} {s0 s : State} (h0 : Initial prog s0) (h : Reach s0 s) :
    Logs s := by
  obtain ⟨n, p, hp, rfl⟩ := initial_construct h0
  exact Reach.induction (fun _ _ _ c hs => logs_step c hs) (logs_init n p prog hp) h

theorem sent_reach {prog : List Op} {s0 s : State} (h0 : Initial prog s0) (h : Reach s0 s) :
    Sent prog s := by
  obtain ⟨n, p, hp, rfl⟩ := initial_construct h0
  exact Reach.induction (fun _ _ _ c hs => sent_step c hs) (sent_init n p prog) h

theorem orderly_reach {prog : List Op} {s0 s : State} (h0 : Initial prog s0)
    (hl : shutdownsLast prog) (h : Reach s0 s) : Orderly s := by
  obtain ⟨n, p, hp, rfl⟩ := initial_construct h0
  have : Ctl s ∧ Orderly s :=
    Reach.induction (P := fun s => Ctl s ∧ Orderly s)
      (fun _ _ _ c hs => ⟨ctl_step c.1 hs, orderly_step c.2 c.1 hs⟩)
      ⟨ctl_init n p prog hp, orderly_init n p prog hl⟩ h
  exact this.2

theorem pending_reach {prog : List Op} {s0 s : State} (h0 : Initial prog s0)
    (hl : Op.shutdown ∈ prog) (h : Reach s0 s) : Pending s := by
  obtain ⟨n, p, hp, rfl⟩ := initial_construct h0
  have : Ctl s ∧ Pending s :=
    Reach.induction (P := fun s => Ctl s ∧ Pending s)
      (fun _ _ _ c hs => ⟨ctl_step c.1 hs, pending_step c.2 c.1 hs⟩)
      ⟨ctl_init n p prog hp, pending_init n p prog hl⟩ h
  exact this.2

theorem length_reach {s0 s : State} (h : Reach s0 s) : s.workers.length = s0.workers.length := by
  refine Reach.induction (P := fun s => s.workers.length = s0.workers.length) ?_ rfl h
  intro s l s' hs hstep
  cases l with
  | main => rw [(mainStep_frame hstep).2.2.2.2, hs]
  | worker i => rw [(workerStep_frame hstep).2.2.2.2.2.2.2.2, hs]
  | printer => rw [(printerStep_frame hstep).2.2.2.2.1, hs]

/-- From a state that satisfies the control invariant, some schedule lets the owner make all
its calls and return from the last one. -/
theorem completes {s : State} (c : Ctl s) : ∃ s', Reach s s' ∧ s'.finished = true := by
  generalize hm : measure s = m
  induction m using Nat.strong_induction_on generalizing s with
  | _ m ih =>
    cases hf : s.finished with
    | true => exact ⟨s, Reach.refl s, hf⟩
    | false =>
      obtain ⟨l, s1, hs⟩ := progress c hf
      have hlt : measure s1 < m := by have := measure_step hs; omega
      obtain ⟨s', hr, hfin⟩ := ih (measure s1) hlt (ctl_step c hs) rfl
      exact ⟨s', ((Reach.refl s).tail hs).trans hr, hfin⟩

/-- A reachable state in which the owner of a program that contains `shutdown` has returned
from its last call: both flags are up and every thread has been joined. -/
theorem finished_joined {s : State} (c : Ctl s) (p : Pending s) (hf : s.finished = true) :
    s.taskStop = true ∧ s.printStop = true ∧
      (∀ w ∈ s.workers, w.pc = .exited ∧ w.joinable = false) ∧
      s.printerThread.joinable = false := by
  simp only [State.finished, Bool.and_eq_true, decide_eq_true_eq, List.isEmpty_iff] at hf
  have hps : s.printStop = true := by
    cases h : s.printStop with
    | true => rfl
    | false =>
      rcases p.second h with hm | ⟨i, hi⟩
      · rw [hf.2] at hm; simp at hm
      · rw [hf.1] at hi; simp at hi
  obtain ⟨h1, h2, h3⟩ := c.stopOrder hps
  refine ⟨h1, hps, fun w hw => ⟨c.joined w hw (h2 w hw), h2 w hw⟩, ?_⟩
  rcases h3 with h3 | h3
  · rw [hf.1] at h3; simp at h3
  · exact h3

theorem inflight_eq_nil {s : State} (h : ∀ w ∈ s.workers, w.pc = .exited) : inflight s = [] := by
  simp only [inflight, List.filterMap_eq_nil_iff]
  intro w hw
  rw [h w hw]; rfl

theorem tasksOf_append (a b : List Op) : tasksOf (a ++ b) = tasksOf a ++ tasksOf b := by
  induction a with
  | nil => rfl
  | cons x xs ih => cases x <;> simp [tasksOf, ih]

theorem printsOf_append (a b : List Op) : printsOf (a ++ b) = printsOf a ++ printsOf b := by
  induction a with
  | nil => rfl
  | cons x xs ih => cases x <;> simp [printsOf, ih]

/-! ## What each constructor fixes -/

/-- A pool built by `ThreadPool(size_t)` has no printer thread, so nothing is ever taken from
the print queue. -/
theorem explicit_no_printer {n : Nat} {prog : List Op} {s : State}
    (h : Reach (mkExplicit n prog) s) :
    s.printerThread = ⟨.absent, false⟩ ∧ s.printed = [] ∧ s.printQueue = s.printSubmitted := by
  refine Reach.induction (P := fun s => s.printerThread = ⟨.absent, false⟩ ∧ s.printed = [] ∧
    s.printQueue = s.printSubmitted) ?_ ⟨rfl, rfl, rfl⟩ h
  intro s l s' ⟨h1, h2, h3⟩ hs
  cases l with
  | printer => simp [step, printer_loop, h1] at hs
  | worker i =>
    obtain ⟨w, hw, hcase⟩ := workerStep_cases hs
    rcases hcase with ⟨hpc, hstop, hq, rfl⟩ | ⟨t, rest, hpc, hq, rfl⟩ |
      ⟨t, k, p, hpc, hp, rfl⟩ | ⟨t, k, hpc, hp, rfl⟩ <;>
      simp [State.setWorker, submitPrintTask, h1, h2, h3]
  | main =>
    rcases mainStep_cases hs with ⟨t, rest, hpc, hprog, rfl⟩ | ⟨p, rest, hpc, hprog, rfl⟩ |
      ⟨rest, hpc, hprog, rfl⟩ | ⟨i, hpc, hw, rfl⟩ | ⟨i, w, hpc, hw, hj, he, rfl⟩ |
      ⟨i, w, hpc, hw, hj, rfl⟩ | ⟨hpc, hj, he, rfl⟩ | ⟨hpc, hj, rfl⟩ <;>
      simp_all [State.setWorker, submitPrintTask]

/-- A pool built by `ThreadPool()` has a printer thread. -/
theorem default_printer {h : Nat} {prog : List Op} {s : State}
    (hr : Reach (mkDefault h prog) s) : s.printerThread.pc ≠ .absent := by
  refine Reach.induction (P := fun s => s.printerThread.pc ≠ .absent) ?_ (by simp [mkDefault,
    construct]) hr
  intro s l s' h1 hs
  cases l with
  | printer =>
    rcases printerStep_cases hs with ⟨hpc, hstop, hq, rfl⟩ | ⟨p, rest, hpc, hq, rfl⟩ |
      ⟨p, hpc, rfl⟩ <;> simp
  | worker i => rw [(workerStep_frame hs).2.2.2.2.1]; exact h1
  | main => rw [(mainStep_frame hs).2.2.2.1]; exact h1

/-- In a pool without workers nothing is ever taken from the task queue, and only the owner
puts print items into the print queue. -/
theorem no_worker_inert {prog : List Op} {s : State} (h : Reach (mkExplicit 0 prog) s) :
    s.workers = [] ∧ s.started = [] ∧ s.executed = [] ∧ s.tasks = s.submitted ∧
      s.printSubmitted = s.clientPrints := by
  refine Reach.induction (P := fun s => s.workers = [] ∧ s.started = [] ∧ s.executed = [] ∧
    s.tasks = s.submitted ∧ s.printSubmitted = s.clientPrints) ?_ ⟨rfl, rfl, rfl, rfl, rfl⟩ h
  intro s l s' ⟨h1, h2, h3, h4, h5⟩ hs
  cases l with
  | printer =>
    obtain ⟨_, _, _, _, e1, e2, e3, e4, e5, e6, e7, _⟩ := printerStep_frame hs
    rw [e1, e2, e3, e4, e5, e6, e7]
    exact ⟨h1, h2, h3, h4, h5⟩
  | worker i => simp [step, worker_loop, h1] at hs
  | main =>
    rcases mainStep_cases hs with ⟨t, rest, hpc, hprog, rfl⟩ | ⟨p, rest, hpc, hprog, rfl⟩ |
      ⟨rest, hpc, hprog, rfl⟩ | ⟨i, hpc, hw, rfl⟩ | ⟨i, w, hpc, hw, hj, he, rfl⟩ |
      ⟨i, w, hpc, hw, hj, rfl⟩ | ⟨hpc, hj, he, rfl⟩ | ⟨hpc, hj, rfl⟩ <;>
      simp_all [State.setWorker, submitPrintTask]

/-- What `ThreadPool()` guarantees for the print queue: when `shutdown()` has returned, the
print items have run in the order they were pushed, the owner's own print items among them in
the order it submitted them, and the print queue is empty. -/
theorem default_print_delivery (h : Nat) (subs : List Op) (hsubs : Op.shutdown ∉ subs)
    {s : State} (hr : Reach (mkDefault h (subs ++ [.shutdown])) s) (hf : s.finished = true) :
    s.printed = s.printSubmitted ∧ s.printQueue = [] ∧ s.clientPrints = printsOf subs ∧
      (printsOf subs).Sublist s.printed := by
  have h0 : Initial (subs ++ [.shutdown]) (mkDefault h (subs ++ [.shutdown])) :=
    Or.inl ⟨h, rfl⟩
  have c := ctl_reach h0 hr
  have lg := logs_reach h0 hr
  have st := sent_reach h0 hr
  have od := orderly_reach h0 (shutdownsLast_append subs _ hsubs (by simp)) hr
  have pd := pending_reach h0 (by simp) hr
  obtain ⟨_, _, _, hj⟩ := finished_joined c pd hf
  have hpe : s.printerThread.pc = .exited := by
    rcases c.pJoined hj with h1 | h1
    · exact h1
    · exact absurd h1 (default_printer hr)
  have hq := od.pDrained hpe
  have h1 := lg.pfifo
  simp only [pInflight, hpe, hq, List.append_nil] at h1
  have hprog : s.prog = [] := by
    simp only [State.finished, Bool.and_eq_true, List.isEmpty_iff] at hf
    exact hf.2
  have h3 := st.prints
  rw [hprog, printsOf_append] at h3
  simp only [printsOf, List.append_nil] at h3
  refine ⟨h1, hq, h3, ?_⟩
  rw [← h3, h1]
  exact lg.cprints

/-! ## Print items of quiet programs -/

theorem mem_inflight {s : State} {w : Worker} {t : WorkItem} {k : Nat} (hw : w ∈ s.workers)
    (hpc : w.pc = .calling t k) : t ∈ inflight s := by
  simp only [inflight, List.mem_filterMap]
  exact ⟨w, hw, by rw [hpc]; rfl⟩

/-- Every work item a worker has popped was submitted by the owner's program. -/
theorem started_subset {prog : List Op} {s : State} (lg : Logs s) (st : Sent prog s)
    {t : WorkItem} (ht : t ∈ s.started) : t ∈ tasksOf prog := by
  rw [← st.tasks, ← lg.fifo]
  exact List.mem_append_left _ (List.mem_append_left _ ht)

/-- When no work item of the program submits print items, the owner's print items are the
only ones pushed. -/
theorem quiet_prints {prog : List Op} {s0 s : State} (h0 : Initial prog s0)
    (hq : ∀ t ∈ tasksOf prog, t.prints = []) (hr : Reach s0 s) :
    s.printSubmitted = s.clientPrints := by
  obtain ⟨n, p, hp, rfl⟩ := initial_construct h0
  have : Logs s ∧ Sent prog s ∧ s.printSubmitted = s.clientPrints := by
    refine Reach.induction (P := fun s => Logs s ∧ Sent prog s ∧
      s.printSubmitted = s.clientPrints) ?_ ⟨logs_init n p prog hp, sent_init n p prog, rfl⟩ hr
    intro s l s' ⟨lg, st, h1⟩ hs
    refine ⟨logs_step lg hs, sent_step st hs, ?_⟩
    cases l with
    | printer =>
      obtain ⟨_, _, _, _, _, _, _, _, _, e6, e7, _⟩ := printerStep_frame hs
      rw [e6, e7]; exact h1
    | worker i =>
      obtain ⟨w, hw, hcase⟩ := workerStep_cases hs
      rcases hcase with ⟨hpc, hstop, hq, rfl⟩ | ⟨t, rest, hpc, hq, rfl⟩ |
        ⟨t, k, p, hpc, hp, rfl⟩ | ⟨t, k, hpc, hp, rfl⟩
      · exact h1
      · exact h1
      · have ht : t ∈ s.started :=
          lg.once.subset (List.mem_append_right _ (mem_inflight (mem_of_getElem? hw) hpc))
        rw [hq t (started_subset lg st ht)] at hp
        simp at hp
      · exact h1
    | main =>
      rcases mainStep_cases hs with ⟨t, rest, hpc, hprog, rfl⟩ | ⟨p, rest, hpc, hprog, rfl⟩ |
        ⟨rest, hpc, hprog, rfl⟩ | ⟨i, hpc, hw, rfl⟩ | ⟨i, w, hpc, hw, hj, he, rfl⟩ |
        ⟨i, w, hpc, hw, hj, rfl⟩ | ⟨hpc, hj, he, rfl⟩ | ⟨hpc, hj, rfl⟩ <;>
        simp_all [State.setWorker, submitPrintTask]
  exact this.2.2

/-! ## Print items of work items -/

theorem defaultThreads_one : defaultThreads 1 = 1 := by decide


theorem workerStep_exited {s : State} {i : Nat}
    (h : ∀ w, s.workers[i]? = some w → w.pc = .exited) : worker_loop s i = none := by
  unfold worker_loop
  cases hw : s.workers[i]? with
  | none => rfl
  | some w => simp [h w hw]

/-- Once all workers have left their loops, every print item of every work item that was
popped has been pushed. -/
theorem prints_pushed {s : State} (c : Ctl s) (lg : Logs s) (hps : s.printStop = true) :
    s.taskStop = true ∧ (∀ w ∈ s.workers, w.pc = .exited) ∧
      (∀ i, step s (.worker i) = none) ∧
      (∀ t ∈ s.started, ∀ p ∈ t.prints, p ∈ s.printSubmitted) := by
  obtain ⟨h1, h2, _⟩ := c.stopOrder hps
  have hall : ∀ w ∈ s.workers, w.pc = .exited := fun w hw => c.joined w hw (h2 w hw)
  refine ⟨h1, hall, fun i => ?_, fun t ht p hp => ?_⟩
  · exact workerStep_exited (fun w hw => hall w (mem_of_getElem? hw))
  · have h3 := lg.once
    rw [inflight_eq_nil hall, List.append_nil] at h3
    exact lg.wprints t (h3.symm.subset ht) p hp

/-- When the printer has left its loop, every print item of every work item that was popped
has been executed. -/
theorem prints_flushed {prog : List Op} {s0 s : State} (h0 : Initial prog s0)
    (hr : Reach s0 s) (hpe : s.printerThread.pc = .exited) :
    ∀ t ∈ s.started, ∀ p ∈ t.prints, p ∈ s.printed := by
  obtain ⟨n, p, hp, rfl⟩ := initial_construct h0
  have : Ctl s ∧ Logs s ∧ (s.printerThread.pc = .exited →
      ∀ t ∈ s.started, ∀ p ∈ t.prints, p ∈ s.printed) := by
    refine Reach.induction (P := fun s => Ctl s ∧ Logs s ∧ (s.printerThread.pc = .exited →
      ∀ t ∈ s.started, ∀ p ∈ t.prints, p ∈ s.printed)) ?_
      ⟨ctl_init n p prog hp, logs_init n p prog hp, ?_⟩ hr
    · intro s l s' ⟨c, lg, h1⟩ hs
      refine ⟨ctl_step c hs, logs_step lg hs, fun hpe' => ?_⟩
      cases l with
      | printer =>
        rcases printerStep_cases hs with ⟨hpc, hstop, hq, rfl⟩ | ⟨q, rest, hpc, hq, rfl⟩ |
          ⟨q, hpc, rfl⟩
        · have h2 := lg.pfifo
          simp only [pInflight, hpc, hq, List.append_nil] at h2
          intro t ht q hq
          show q ∈ s.printed
          rw [h2]
          exact (prints_pushed c lg hstop).2.2.2 t ht q hq
        · simp at hpe'
        · simp at hpe'
      | worker i =>
        obtain ⟨_, _, _, _, e5, _⟩ := workerStep_frame hs
        rw [e5] at hpe'
        have := (prints_pushed c lg (c.pExitedStop hpe')).2.2.1 i
        simp only [step] at this hs
        rw [this] at hs
        simp at hs
      | main =>
        obtain ⟨e1, _, e3, e4, _⟩ := mainStep_frame hs
        rw [e4] at hpe'
        rw [e1, e3]
        exact h1 hpe'
    · rcases hp with rfl | rfl <;> simp [construct]
  exact this.2.2 hpe

/-! ## Integer conversions -/

theorem toInt_of_lt {u : Nat} (h : u < 2 ^ 31) : toInt u = u := by
  unfold toInt
  have h1 : u % 2 ^ 32 = u := Nat.mod_eq_of_lt (by omega)
  rw [h1, if_pos h]

theorem defaultThreads_of_lt {h : Nat} (hh : h < 2 ^ 31) : defaultThreads h = h := by
  unfold defaultThreads toSizeT
  rw [toInt_of_lt hh]
  have : ((h : Int) % 2 ^ 64) = h := Int.emod_eq_of_lt (by omega) (by omega)
  rw [this]
  simp

/-! ## A shutdown call on a pool whose threads have been joined -/

theorem run_append (s : State) (a b : List Thr) :
    run s (a ++ b) = (run s a).bind fun s' => run s' b := by
  induction a generalizing s with
  | nil => simp [run]
  | cons x xs ih =>
    simp only [List.cons_append, run]
    cases step s x with
    | none => simp
    | some s1 => simp [ih]

/-- In `shutdown`, the range-for over workers none of which is joinable only advances. -/
theorem run_skip_joined (b : State) (hall : ∀ w ∈ b.workers, w.joinable = false) :
    ∀ k i, i + k = b.workers.length →
      run { b with pc := .joinWorkers i } (List.replicate k .main) =
        some { b with pc := .joinWorkers b.workers.length } := by
  intro k
  induction k with
  | zero =>
    intro i hi
    simp only [Nat.add_zero] at hi
    subst hi
    rfl
  | succ k ih =>
    intro i hi
    have hlt : i < b.workers.length := by omega
    have hw : b.workers[i]? = some b.workers[i] := List.getElem?_eq_getElem hlt
    have hj := hall _ (List.getElem_mem hlt)
    have hs : step { b with pc := .joinWorkers i } .main =
        some { b with pc := .joinWorkers (i + 1) } := by
      simp [step, mainStep, shutdown, hw, hj]
    simp only [List.replicate_succ, run, hs, Option.some_bind]
    exact ih (i + 1) (by omega)


/-- The rest of `shutdown` after `taskStop` has been set, when no thread is joinable: the
owner walks over `workers`, sets `printStop`, and returns. -/
theorem run_shutdown_joined (b : State) (hall : ∀ w ∈ b.workers, w.joinable = false)
    (hpj : b.printerThread.joinable = false) :
    run { b with pc := .joinWorkers 0 } (List.replicate (b.workers.length + 2) .main) =
      some { b with printStop := true, pc := .client } := by
  have h3 : step { b with pc := .joinWorkers b.workers.length } .main =
      some { b with printStop := true, pc := .joinPrinter } := by
    have : b.workers[b.workers.length]? = none := List.getElem?_eq_none (le_refl _)
    simp [step, mainStep, shutdown, this]
  have h4 : step { b with printStop := true, pc := .joinPrinter } .main =
      some { b with printStop := true, pc := .client } := by
    simp [step, mainStep, shutdown, hpj]
  rw [List.replicate_add, run_append, run_skip_joined b hall b.workers.length 0 (by simp)]
  simp only [Option.some_bind, List.replicate, run, h3, h4]

/-! ## Threads move only by their own steps -/

/-- A step of another thread does not move worker `i`. -/
theorem worker_pc_other {s s' : State} {l : Thr} {i : Nat} (h : step s l = some s')
    (hl : l ≠ .worker i) : (s'.workers[i]?).map (fun w => w.pc) = (s.workers[i]?).map fun w => w.pc := by
  cases l with
  | printer => rw [(printerStep_frame h).2.2.2.2.1]
  | worker j =>
    have hji : j ≠ i := fun e => hl (by rw [e])
    obtain ⟨w, hw, hcase⟩ := workerStep_cases h
    rcases hcase with ⟨hpc, hstop, hq, rfl⟩ | ⟨t, rest, hpc, hq, rfl⟩ |
      ⟨t, k, p, hpc, hp, rfl⟩ | ⟨t, k, hpc, hp, rfl⟩ <;>
      simp [State.setWorker, submitPrintTask, List.getElem?_set_ne hji]
  | main =>
    rcases mainStep_cases h with ⟨t, rest, hpc, hprog, rfl⟩ | ⟨p, rest, hpc, hprog, rfl⟩ |
      ⟨rest, hpc, hprog, rfl⟩ | ⟨j, hpc, hw, rfl⟩ | ⟨j, w, hpc, hw, hj, he, rfl⟩ |
      ⟨j, w, hpc, hw, hj, rfl⟩ | ⟨hpc, hj, he, rfl⟩ | ⟨hpc, hj, rfl⟩
    · rfl
    · rfl
    · rfl
    · rfl
    · by_cases hji : j = i
      · subst hji
        simp [State.setWorker, List.getElem?_set, hw]
        rw [List.getElem?_eq_some] at hw
        exact hw.1
      · simp [State.setWorker, List.getElem?_set_ne hji]
    · rfl
    · rfl
    · rfl

/-- A step of another thread does not move the printer. -/
theorem printer_pc_other {s s' : State} {l : Thr} (h : step s l = some s')
    (hl : l ≠ .printer) : s'.printerThread.pc = s.printerThread.pc := by
  cases l with
  | printer => exact absurd rfl hl
  | worker j => rw [(workerStep_frame h).2.2.2.2.1]
  | main => exact (mainStep_frame h).2.2.2.1

/-! # The claims -/

/-- C1. Drain-before-stop and no double delivery on the work queue. A pool is built by
`ThreadPool(n)` with `n ≥ 1`; its owner makes the submissions `subs` and then calls
`shutdown()`. Whatever the schedule: (1) when `shutdown()` has returned, the log of executed
work items is a permutation of the work items submitted (each ran exactly once) and the task
queue is empty; (2) from every reachable state the run can be continued until `shutdown()`
returns, so no schedule deadlocks; (3) no schedule is longer than `measure` of the initial
state, so `shutdown()` does return. -/
theorem drain_before_stop (n : Nat) (hn : 1 ≤ n) (subs : List Op)
    (hsubs : Op.shutdown ∉ subs) :
    (∀ s, Reach (mkExplicit n (subs ++ [.shutdown])) s → s.finished = true →
      s.executed.Perm (tasksOf subs) ∧ s.tasks = []) ∧
    (∀ s, Reach (mkExplicit n (subs ++ [.shutdown])) s →
      ∃ s', Reach s s' ∧ s'.finished = true) ∧
    (∀ sched s, run (mkExplicit n (subs ++ [.shutdown])) sched = some s →
      sched.length ≤ measure (mkExplicit n (subs ++ [.shutdown]))) := by
  have h0 : Initial (subs ++ [.shutdown]) (mkExplicit n (subs ++ [.shutdown])) :=
    Or.inr ⟨n, rfl⟩
  refine ⟨fun s hr hf => ?_, fun s hr => completes (ctl_reach h0 hr), fun sched s hrun => ?_⟩
  · have c := ctl_reach h0 hr
    have lg := logs_reach h0 hr
    have st := sent_reach h0 hr
    have od := orderly_reach h0 (shutdownsLast_append subs _ hsubs (by simp)) hr
    have pd := pending_reach h0 (by simp) hr
    obtain ⟨_, _, hall, _⟩ := finished_joined c pd hf
    have hlen : s.workers.length = n := by
      rw [length_reach hr]; simp [mkExplicit, construct]
    have hq : s.tasks = [] := by
      cases hws : s.workers with
      | nil => rw [hws] at hlen; simp at hlen; omega
      | cons w ws => exact od.drained w (by simp [hws]) (hall w (by simp [hws])).1
    have hprog : s.prog = [] := by
      simp only [State.finished, Bool.and_eq_true, List.isEmpty_iff] at hf
      exact hf.2
    have h1 := lg.once
    rw [inflight_eq_nil (fun w hw => (hall w hw).1), List.append_nil] at h1
    have h2 := lg.fifo
    rw [hq, List.append_nil] at h2
    have h3 := st.tasks
    rw [hprog, tasksOf_append] at h3
    simp only [tasksOf, List.append_nil] at h3
    rw [h2, h3] at h1
    exact ⟨h1, hq⟩
  · have := measure_run hrun
    omega

/-- C1 at a concrete pool: two workers, three work items, one of which submits a print
item. In the first schedule work items are still queued and running when the owner calls
`shutdown()`; in the second all of them have been executed before the call. -/
theorem drain_before_stop_witness :
    (1 ≤ 2 ∧ Op.shutdown ∉ [Op.submitTask ⟨1, []⟩, .submitTask ⟨2, [7]⟩, .submitTask ⟨3, []⟩]) ∧
    (∃ s, run (mkExplicit 2 ([.submitTask ⟨1, []⟩, .submitTask ⟨2, [7]⟩, .submitTask ⟨3, []⟩] ++
          [.shutdown]))
        [.main, .worker 0, .main, .main, .worker 1, .main, .worker 1, .worker 0, .worker 0,
          .worker 1, .worker 0, .worker 1, .worker 0, .main, .main, .main, .main]
        = some s ∧
      s.finished = true ∧
      s.executed.Perm (tasksOf [.submitTask ⟨1, []⟩, .submitTask ⟨2, [7]⟩, .submitTask ⟨3, []⟩]) ∧
      s.tasks = []) ∧
    (∃ s, run (mkExplicit 2 ([.submitTask ⟨1, []⟩, .submitTask ⟨2, [7]⟩, .submitTask ⟨3, []⟩] ++
          [.shutdown]))
        [.main, .main, .main, .worker 0, .worker 0, .worker 0, .worker 0, .worker 0, .worker 1,
          .worker 1, .main, .worker 0, .worker 1, .main, .main, .main, .main]
        = some s ∧
      s.finished = true ∧
      s.executed.Perm (tasksOf [.submitTask ⟨1, []⟩, .submitTask ⟨2, [7]⟩, .submitTask ⟨3, []⟩]) ∧
      s.tasks = []) := by
  have h := (drain_before_stop 2 (by decide)
    [.submitTask ⟨1, []⟩, .submitTask ⟨2, [7]⟩, .submitTask ⟨3, []⟩] (by decide)).1
  refine ⟨⟨by decide, by decide⟩, ⟨_, rfl, rfl, ?_⟩, ⟨_, rfl, rfl, ?_⟩⟩
  · exact h _
      ⟨[.main, .worker 0, .main, .main, .worker 1, .main, .worker 1, .worker 0, .worker 0,
        .worker 1, .worker 0, .worker 1, .worker 0, .main, .main, .main, .main], rfl⟩ rfl
  · exact h _
      ⟨[.main, .main, .main, .worker 0, .worker 0, .worker 0, .worker 0, .worker 0, .worker 1,
        .worker 1, .main, .worker 0, .worker 1, .main, .main, .main, .main], rfl⟩ rfl

/-- C2, the code at the failing input. The pool is built by `ThreadPool(1)`; its owner
submits print item 7 and calls `shutdown()`. A schedule exists in which `shutdown()`
returns, and in every state in which it has returned print item 7 has not been executed and
is still in the print queue. The same happens for every worker count and every program: a
pool built by `ThreadPool(size_t)` never executes a print item. -/
theorem print_delivery_explicit_fails :
    (∃ s, run (mkExplicit 1 [.submitPrintTask 7, .shutdown])
        [.main, .main, .worker 0, .main, .main, .main] = some s ∧ s.finished = true) ∧
    (∀ s, Reach (mkExplicit 1 [.submitPrintTask 7, .shutdown]) s → s.finished = true →
      s.printed = [] ∧ s.printQueue = [7]) ∧
    ∀ (n : Nat) (prog : List Op) (s : State), Reach (mkExplicit n prog) s →
      s.printed = [] ∧ s.printQueue = s.printSubmitted := by
  refine ⟨⟨_, rfl, rfl⟩, fun s hr hf => ?_, fun n prog s hr => (explicit_no_printer hr).2⟩
  have h0 : Initial [.submitPrintTask 7, .shutdown]
      (mkExplicit 1 [.submitPrintTask 7, .shutdown]) := Or.inr ⟨1, rfl⟩
  obtain ⟨_, h2, h3⟩ := explicit_no_printer hr
  have st := sent_reach h0 hr
  have hprog : s.prog = [] := by
    simp only [State.finished, Bool.and_eq_true, List.isEmpty_iff] at hf
    exact hf.2
  have h4 := st.prints
  rw [hprog] at h4
  simp only [printsOf, List.append_nil] at h4
  rw [h3, quiet_prints h0 (by simp [tasksOf]) hr, h4]
  exact ⟨h2, rfl⟩

/-- C3. FIFO with one worker. A pool has exactly one worker (built by `ThreadPool(1)`, or
by `ThreadPool()` on a host that reports one hardware thread); its owner is the only
submitter. (1) In every reachable state the submission order of the whole program is: the
work items executed so far, then the one the worker is running, then the task queue from
front to back, then the items not submitted yet; and the items popped so far are the
executed ones followed by the running one. So the worker pops and executes exactly in
submission order. (2) When the program is submissions followed by `shutdown()` and that call
has returned, the pop order and the execution order both equal the submission order. -/
theorem fifo_single_worker (prog : List Op) (s0 : State)
    (h0 : s0 = mkExplicit 1 prog ∨ s0 = mkDefault 1 prog) :
    (∀ s, Reach s0 s →
      s.executed ++ inflight s ++ s.tasks ++ tasksOf s.prog = tasksOf prog ∧
      s.started = s.executed ++ inflight s) ∧
    (∀ subs, Op.shutdown ∉ subs → prog = subs ++ [.shutdown] →
      ∀ s, Reach s0 s → s.finished = true →
        s.started = tasksOf subs ∧ s.executed = tasksOf subs) := by
  have hi : Initial prog s0 := by
    rcases h0 with rfl | rfl
    · exact Or.inr ⟨1, rfl⟩
    · exact Or.inl ⟨1, rfl⟩
  have hlen : ∀ s, Reach s0 s → s.workers.length ≤ 1 := by
    intro s hr
    rw [length_reach hr]
    rcases h0 with rfl | rfl
    · simp [mkExplicit, construct]
    · simp [mkDefault, construct, defaultThreads_one]
  have key : ∀ s, Reach s0 s →
      s.executed ++ inflight s ++ s.tasks ++ tasksOf s.prog = tasksOf prog ∧
      s.started = s.executed ++ inflight s := by
    intro s hr
    have lg := logs_reach hi hr
    have st := sent_reach hi hr
    have h1 := lg.inOrder (hlen s hr)
    refine ⟨?_, h1.symm⟩
    rw [h1, lg.fifo, st.tasks]
  refine ⟨key, fun subs hsubs hprog s hr hf => ?_⟩
  subst hprog
  obtain ⟨h1, h2⟩ := key s hr
  have c := ctl_reach hi hr
  have pd := pending_reach hi (by simp) hr
  have od := orderly_reach hi (shutdownsLast_append subs _ hsubs (by simp)) hr
  obtain ⟨_, _, hall, _⟩ := finished_joined c pd hf
  have hin := inflight_eq_nil (fun w hw => (hall w hw).1)
  have hprog : s.prog = [] := by
    simp only [State.finished, Bool.and_eq_true, List.isEmpty_iff] at hf
    exact hf.2
  have hq : s.tasks = [] := by
    have hl : s.workers.length = 1 := by
      rw [length_reach hr]
      rcases h0 with rfl | rfl
      · simp [mkExplicit, construct]
      · simp [mkDefault, construct, defaultThreads_one]
    cases hws : s.workers with
    | nil => rw [hws] at hl; simp at hl
    | cons w ws => exact od.drained w (by simp [hws]) (hall w (by simp [hws])).1
  rw [hin, hq, hprog, tasksOf_append] at h1
  simp only [tasksOf, List.append_nil] at h1
  rw [hin, List.append_nil] at h2
  exact ⟨by rw [h2, h1], h1⟩

/-- C3 at a concrete pool: one worker, three work items, the worker starts before all are
submitted; `shutdown()` returns with the items executed in submission order. -/
theorem fifo_single_worker_witness :
    (mkExplicit 1 ([.submitTask ⟨1, []⟩, .submitTask ⟨2, []⟩, .submitTask ⟨3, []⟩] ++
        [.shutdown]) =
      mkExplicit 1 ([.submitTask ⟨1, []⟩, .submitTask ⟨2, []⟩, .submitTask ⟨3, []⟩] ++
        [.shutdown]) ∨
     mkExplicit 1 ([.submitTask ⟨1, []⟩, .submitTask ⟨2, []⟩, .submitTask ⟨3, []⟩] ++
        [.shutdown]) =
      mkDefault 1 ([.submitTask ⟨1, []⟩, .submitTask ⟨2, []⟩, .submitTask ⟨3, []⟩] ++
        [.shutdown])) ∧
    ∃ s, run (mkExplicit 1 ([.submitTask ⟨1, []⟩, .submitTask ⟨2, []⟩, .submitTask ⟨3, []⟩] ++
          [.shutdown]))
        [.main, .main, .worker 0, .main, .worker 0, .worker 0, .main, .worker 0, .worker 0,
          .worker 0, .worker 0, .main, .main, .main] = some s ∧
      s.finished = true ∧
      s.started = [⟨1, []⟩, ⟨2, []⟩, ⟨3, []⟩] ∧ s.executed = [⟨1, []⟩, ⟨2, []⟩, ⟨3, []⟩] := by
  refine ⟨Or.inl rfl, _, rfl, rfl, ?_⟩
  exact (fifo_single_worker _ _ (Or.inl rfl)).2
    [.submitTask ⟨1, []⟩, .submitTask ⟨2, []⟩, .submitTask ⟨3, []⟩] (by decide) rfl _
    ⟨[.main, .main, .worker 0, .main, .worker 0, .worker 0, .main, .worker 0, .worker 0,
      .worker 0, .worker 0, .main, .main, .main], rfl⟩ rfl

/-- C4. Shutdown ordering. For a pool built by either constructor and any program of its
owner: (1) in every reachable state in which `printStop` is true, `taskStop` is true, every
worker has left its loop, no worker can take a step any more, and every print item of every
work item that was ever popped has already been pushed into the print queue; (2) in every
reachable state in which the printer has left its loop, `printStop` is true and every print
item of every work item that was ever popped has been executed; (3) when the owner submits
nothing after `shutdown()`, in every reachable state in which the printer has left its loop
the print queue is empty and every print item pushed has been executed, in push order. -/
theorem shutdown_ordering (prog : List Op) (s0 : State) (h0 : Initial prog s0) :
    (∀ s, Reach s0 s → s.printStop = true →
      s.taskStop = true ∧ (∀ w ∈ s.workers, w.pc = .exited) ∧
      (∀ i, step s (.worker i) = none) ∧
      (∀ t ∈ s.started, ∀ p ∈ t.prints, p ∈ s.printSubmitted)) ∧
    (∀ s, Reach s0 s → s.printerThread.pc = .exited →
      s.printStop = true ∧ ∀ t ∈ s.started, ∀ p ∈ t.prints, p ∈ s.printed) ∧
    (shutdownsLast prog → ∀ s, Reach s0 s → s.printerThread.pc = .exited →
      s.printQueue = [] ∧ s.printed = s.printSubmitted) := by
  refine ⟨fun s hr hps => prints_pushed (ctl_reach h0 hr) (logs_reach h0 hr) hps,
    fun s hr hpe => ⟨(ctl_reach h0 hr).pExitedStop hpe, prints_flushed h0 hr hpe⟩,
    fun hl s hr hpe => ?_⟩
  have lg := logs_reach h0 hr
  have hq := (orderly_reach h0 hl hr).pDrained hpe
  have h1 := lg.pfifo
  simp only [pInflight, hpe, hq, List.append_nil] at h1
  exact ⟨hq, h1⟩

/-- C4 at a concrete pool built by `ThreadPool()` on a host with one hardware thread: the
work item submits print item 7 only after the owner has called `shutdown()`, and the printer
still executes it before it leaves its loop. -/
theorem shutdown_ordering_witness :
    Initial [.submitTask ⟨1, [7]⟩, .shutdown] (mkDefault 1 [.submitTask ⟨1, [7]⟩, .shutdown]) ∧
    ∃ s, run (mkDefault 1 [.submitTask ⟨1, [7]⟩, .shutdown])
        [.main, .worker 0, .main, .worker 0, .worker 0, .worker 0, .main, .main, .printer,
          .printer, .printer] = some s ∧
      s.printerThread.pc = .exited ∧ s.printed = [7] ∧
      (s.printStop = true ∧ ∀ t ∈ s.started, ∀ p ∈ t.prints, p ∈ s.printed) := by
  refine ⟨Or.inl ⟨1, rfl⟩, _, rfl, rfl, rfl, ?_⟩
  exact (shutdown_ordering [.submitTask ⟨1, [7]⟩, .shutdown] _ (Or.inl ⟨1, rfl⟩)).2.1 _
    ⟨[.main, .worker 0, .main, .worker 0, .worker 0, .worker 0, .main, .main, .printer,
      .printer, .printer], rfl⟩ rfl

/-- A value of `hardware_concurrency()` that an `int` cannot hold turns negative in
`num_threads` and then huge in the comparison with the `size_t` counter. -/
theorem defaultThreads_int_overflow : defaultThreads (2 ^ 31) = 2 ^ 64 - 2 ^ 31 := by
  decide

/-- C5, counterexample. When `hardware_concurrency()` reports 0, `ThreadPool()` spawns no
worker: the pool has 0 workers, not `max 0 1`, and `getWorkerCount()` is 0, not at least 1. -/
theorem default_zero_hardware_threads :
    (mkDefault 0 []).workers.length = 0 ∧ (mkDefault 0 []).workers.length ≠ max 0 1 ∧
      getWorkerCount (mkDefault 0 []) = 0 ∧ ¬ 1 ≤ getWorkerCount (mkDefault 0 []) := by
  decide

/-- C5, amended. For every value `h` that `hardware_concurrency()` reports and that an `int`
can hold (see `defaultThreads_int_overflow` for one that it cannot), the pool `ThreadPool()` builds has exactly `h` workers and `getWorkerCount()` is
`h`, in the initial state and in every state reachable from it; so for `h ≥ 1` the pool has
`max h 1` workers and `getWorkerCount() ≥ 1`, and for `h = 0` it has none. -/
theorem default_worker_count (h : Nat) (hh : h < 2 ^ 31) (prog : List Op) :
    (∀ s, Reach (mkDefault h prog) s → s.workers.length = h ∧ getWorkerCount s = h) ∧
    (1 ≤ h → ∀ s, Reach (mkDefault h prog) s →
      s.workers.length = max h 1 ∧ 1 ≤ getWorkerCount s) ∧
    (h = 0 → ∀ s, Reach (mkDefault h prog) s → s.workers = [] ∧ getWorkerCount s = 0) := by
  have key : ∀ s, Reach (mkDefault h prog) s → s.workers.length = h ∧ getWorkerCount s = h := by
    intro s hr
    have hl : s.workers.length = h := by
      rw [length_reach hr]
      simp [mkDefault, construct, defaultThreads_of_lt hh]
    exact ⟨hl, by rw [getWorkerCount, hl, toInt_of_lt hh]⟩
  refine ⟨key, fun h1 s hr => ?_, fun h0 s hr => ?_⟩
  · obtain ⟨k1, k2⟩ := key s hr
    rw [k1, k2]
    exact ⟨by omega, by omega⟩
  · obtain ⟨k1, k2⟩ := key s hr
    subst h0
    exact ⟨List.length_eq_zero.1 k1, by simpa using k2⟩

/-- C5, amended, on a host that reports 4 hardware threads. -/
theorem default_worker_count_witness :
    4 < 2 ^ 31 ∧ (mkDefault 4 [.shutdown]).workers.length = 4 ∧
      getWorkerCount (mkDefault 4 [.shutdown]) = 4 :=
  ⟨by decide, (default_worker_count 4 (by decide) [.shutdown]).1 _ (Reach.refl _)⟩

/-- C6. A zero-worker pool is silently inert. `ThreadPool(0)` is not rejected: it builds a
pool with no worker and no printer thread. For every sequence `subs` of `submitTask` and
`submitPrintTask` calls followed by `shutdown()`: (1) in every reachable state no item has
been popped or executed and no thread but the owner can take a step; (2) the owner is never
blocked: as long as it has not returned from `shutdown()` it can take its next step; (3) no
schedule is longer than `measure` of the initial state and some schedule makes `shutdown()`
return; (4) when `shutdown()` has returned, the task queue holds exactly the submitted work
items and the print queue exactly the submitted print items, in submission order. (The
statement does not need `subs` to be free of `shutdown` calls.) -/
theorem zero_workers_inert (subs : List Op) :
    ((mkExplicit 0 (subs ++ [.shutdown])).workers = [] ∧
      (mkExplicit 0 (subs ++ [.shutdown])).printerThread = ⟨.absent, false⟩) ∧
    (∀ s, Reach (mkExplicit 0 (subs ++ [.shutdown])) s →
      s.started = [] ∧ s.executed = [] ∧ s.printed = [] ∧
      ∀ l s', step s l = some s' → l = .main) ∧
    (∀ s, Reach (mkExplicit 0 (subs ++ [.shutdown])) s → s.finished = false →
      ∃ s', step s .main = some s') ∧
    ((∀ sched s, run (mkExplicit 0 (subs ++ [.shutdown])) sched = some s →
        sched.length ≤ measure (mkExplicit 0 (subs ++ [.shutdown]))) ∧
      ∃ s, Reach (mkExplicit 0 (subs ++ [.shutdown])) s ∧ s.finished = true) ∧
    (∀ s, Reach (mkExplicit 0 (subs ++ [.shutdown])) s → s.finished = true →
      s.tasks = tasksOf subs ∧ s.printQueue = printsOf subs) := by
  have h0 : Initial (subs ++ [.shutdown]) (mkExplicit 0 (subs ++ [.shutdown])) :=
    Or.inr ⟨0, rfl⟩
  have only : ∀ s, Reach (mkExplicit 0 (subs ++ [.shutdown])) s →
      ∀ l s', step s l = some s' → l = .main := by
    intro s hr l s' hs
    obtain ⟨h1, _⟩ := no_worker_inert hr
    obtain ⟨h2, _⟩ := explicit_no_printer hr
    cases l with
    | main => rfl
    | worker i => simp [step, worker_loop, h1] at hs
    | printer => simp [step, printer_loop, h2] at hs
  refine ⟨⟨rfl, rfl⟩, fun s hr => ?_, fun s hr hf => ?_, ⟨fun sched s hrun => ?_, ?_⟩,
    fun s hr hf => ?_⟩
  · obtain ⟨_, h2, h3, _⟩ := no_worker_inert hr
    exact ⟨h2, h3, (explicit_no_printer hr).2.1, only s hr⟩
  · obtain ⟨l, s', hs⟩ := progress (ctl_reach h0 hr) hf
    have := only s hr l s' hs
    subst this
    exact ⟨s', hs⟩
  · have := measure_run hrun
    omega
  · exact completes (ctl_reach h0 (Reach.refl _))
  · obtain ⟨_, _, _, h4, h5⟩ := no_worker_inert hr
    obtain ⟨_, _, h6⟩ := explicit_no_printer hr
    have st := sent_reach h0 hr
    have hprog : s.prog = [] := by
      simp only [State.finished, Bool.and_eq_true, List.isEmpty_iff] at hf
      exact hf.2
    have h7 := st.tasks
    have h8 := st.prints
    rw [hprog, tasksOf_append] at h7
    rw [hprog, printsOf_append] at h8
    simp only [tasksOf, printsOf, List.append_nil] at h7 h8
    exact ⟨by rw [h4, h7], by rw [h6, h5, h8]⟩

/-- C6 at a concrete program: two work items and a print item are submitted to
`ThreadPool(0)`; `shutdown()` returns after the owner's six steps and all three items are
still queued, none executed. -/
theorem zero_workers_inert_witness :
    ∃ s, run (mkExplicit 0 ([.submitTask ⟨1, [5]⟩, .submitPrintTask 7, .submitTask ⟨2, []⟩] ++
          [.shutdown])) [.main, .main, .main, .main, .main, .main] = some s ∧
      s.finished = true ∧ s.executed = [] ∧ s.printed = [] ∧
      (s.tasks = tasksOf [.submitTask ⟨1, [5]⟩, .submitPrintTask 7, .submitTask ⟨2, []⟩] ∧
        s.printQueue = printsOf [.submitTask ⟨1, [5]⟩, .submitPrintTask 7, .submitTask ⟨2, []⟩])
    := by
  refine ⟨_, rfl, rfl, rfl, rfl, ?_⟩
  exact (zero_workers_inert
    [.submitTask ⟨1, [5]⟩, .submitPrintTask 7, .submitTask ⟨2, []⟩]).2.2.2.2 _ ⟨[.main, .main, .main, .main, .main, .main], rfl⟩ rfl

/-- The state in which a `shutdown()` call returns: the owner is between two calls and
`printStop` is true. -/
theorem shutdown_returns_stopped {prog : List Op} {s0 s1 s : State} (h0 : Initial prog s0)
    (hr : Reach s0 s1) (hpc : s1.pc = .joinPrinter) (hs : step s1 .main = some s) :
    Reach s0 s ∧ s.pc = .client ∧ s.printStop = true := by
  have hps := (ctl_reach h0 hr).pJoining hpc
  refine ⟨hr.tail hs, ?_⟩
  rcases mainStep_cases hs with ⟨t, rest, h, _, rfl⟩ | ⟨p, rest, h, _, rfl⟩ |
    ⟨rest, h, _, rfl⟩ | ⟨i, h, _, rfl⟩ | ⟨i, w, h, _, _, _, rfl⟩ |
    ⟨i, w, h, _, _, rfl⟩ | ⟨_, _, _, rfl⟩ | ⟨_, _, rfl⟩
  all_goals first
    | exact ⟨rfl, hps⟩
    | (rw [hpc] at h; simp at h)

/-- C7. Sequential idempotence of `shutdown`. Take a pool built by either constructor, any
program of its owner, and a reachable state `s` in which the owner is between two calls and
`printStop` is true (the flag is raised only inside `shutdown` and the owner is back between
calls only when that call has returned, so these are the states after at least one complete
`shutdown()`, see `shutdown_returns_stopped`), and let the owner's next call be `shutdown()`. Then no thread is joinable, no
worker and no printer step is possible, `taskStop` is true, and the second call runs through
in `workers.size() + 3` steps of the owner and returns in a state that differs from `s` only
in that the call has been consumed: threads, both flags, both queues and all logs are the
same. -/
theorem shutdown_again_noop (prog : List Op) (s0 : State) (h0 : Initial prog s0) (s : State)
    (hr : Reach s0 s) (hpc : s.pc = .client) (hps : s.printStop = true) (rest : List Op)
    (hprog : s.prog = .shutdown :: rest) :
    ((∀ w ∈ s.workers, w.joinable = false ∧ w.pc = .exited) ∧
      s.printerThread.joinable = false ∧ s.taskStop = true) ∧
    ((∀ i, step s (.worker i) = none) ∧ step s .printer = none) ∧
    run s (List.replicate (s.workers.length + 3) .main) = some { s with prog := rest } := by
  have c := ctl_reach h0 hr
  obtain ⟨hts, hall, hpj⟩ := c.stopOrder hps
  have hpj : s.printerThread.joinable = false := by
    rcases hpj with h | h
    · rw [hpc] at h; simp at h
    · exact h
  have hex : ∀ w ∈ s.workers, w.pc = .exited := fun w hw => c.joined w hw (hall w hw)
  refine ⟨⟨fun w hw => ⟨hall w hw, hex w hw⟩, hpj, hts⟩, ⟨fun i => ?_, ?_⟩, ?_⟩
  · exact workerStep_exited (fun w hw => hex w (mem_of_getElem? hw))
  · rcases c.pJoined hpj with h | h <;> simp [step, printer_loop, h]
  · have h1 : step s .main =
        some { { s with prog := rest, taskStop := true } with pc := .joinWorkers 0 } := by
      simp [step, mainStep, shutdown, hpc, hprog]
    have h2 := run_shutdown_joined { s with prog := rest, taskStop := true } hall hpj
    have e : ({ { s with prog := rest, taskStop := true } with
        printStop := true, pc := .client } : State) = { s with prog := rest } := by
      cases s
      simp_all
    rw [e] at h2
    show run s (.main :: List.replicate (s.workers.length + 2) .main) = _
    simp only [run, h1, Option.some_bind]
    exact h2

/-- C7 at a concrete pool built by `ThreadPool()` on a host with one hardware thread: after
a first complete `shutdown()`, the second one (the destructor's) returns after the owner's
four steps and changes nothing in the pool. -/
theorem shutdown_again_noop_witness :
    ∃ s, run (mkDefault 1 [.submitTask ⟨1, [7]⟩, .shutdown, .shutdown])
        [.main, .worker 0, .main, .worker 0, .worker 0, .worker 0, .main, .main, .printer,
          .printer, .printer, .main] = some s ∧
      (s.pc = .client ∧ s.printStop = true ∧ s.prog = [.shutdown]) ∧
      run s (List.replicate (s.workers.length + 3) .main) = some { s with prog := [] } := by
  refine ⟨_, rfl, ⟨rfl, rfl, rfl⟩, ?_⟩
  exact (shutdown_again_noop [.submitTask ⟨1, [7]⟩, .shutdown, .shutdown] _ (Or.inl ⟨1, rfl⟩) _
    ⟨[.main, .worker 0, .main, .worker 0, .worker 0, .worker 0, .main, .main, .printer,
      .printer, .printer, .main], rfl⟩ rfl rfl [] rfl).2.2

/-- C8. Worker count accuracy. For every worker count `n` that an `int` can hold and every
program of the owner (any sequence of `submitTask`, `submitPrintTask` and `shutdown` calls),
`getWorkerCount()` is `n` in the state `ThreadPool(n)` builds and in every state reachable
from it, and `workers` keeps its `n` elements. -/
theorem worker_count_exact (n : Nat) (hn : n < 2 ^ 31) (prog : List Op) :
    ∀ s, Reach (mkExplicit n prog) s → getWorkerCount s = n ∧ s.workers.length = n := by
  intro s hr
  have hl : s.workers.length = n := by
    rw [length_reach hr]
    simp [mkExplicit, construct]
  exact ⟨by rw [getWorkerCount, hl, toInt_of_lt hn], hl⟩

/-- C8 for `n` in 0, 1 and 8: right after construction, and for `n = 8` also after a
submission, a `shutdown()` and a second `shutdown()` have begun. -/
theorem worker_count_exact_witness :
    (0 < 2 ^ 31 ∧ 1 < 2 ^ 31 ∧ 8 < 2 ^ 31) ∧
    getWorkerCount (mkExplicit 0 []) = 0 ∧ getWorkerCount (mkExplicit 1 []) = 1 ∧
    getWorkerCount (mkExplicit 8 []) = 8 ∧
    ∃ s, run (mkExplicit 8 [.submitTask ⟨1, []⟩, .shutdown, .shutdown])
        [.main, .worker 3, .main, .worker 3] = some s ∧ getWorkerCount s = 8 := by
  refine ⟨⟨by decide, by decide, by decide⟩,
    ((worker_count_exact 0 (by decide) []) _ (Reach.refl _)).1,
    ((worker_count_exact 1 (by decide) []) _ (Reach.refl _)).1,
    ((worker_count_exact 8 (by decide) []) _ (Reach.refl _)).1, _, rfl, ?_⟩
  exact ((worker_count_exact 8 (by decide) [.submitTask ⟨1, []⟩, .shutdown, .shutdown]) _
    ⟨[.main, .worker 3, .main, .worker 3], rfl⟩).1

/-- C9. The state machine of an execution unit, for `worker_loop` and for `printer_loop`.
Loop body: under the wake predicate (`stop` or queue non-empty) the body breaks exactly when
`stop` is true and the queue is empty, and otherwise hands the front item to `task` and
leaves the rest of the queue in order. System, for worker `i` (and likewise the printer):
a waiting unit can step exactly when the wake predicate holds; its step either terminates
it, in a state where the stop flag is true and the queue is empty, or pops the front item,
leaves the remaining items in order, and enters the call of that item; a unit inside a call
stays running and, when the call returns, the item is logged as executed; a unit becomes
terminated by no other transition and through no other thread; a terminated unit takes no
step and stays terminated under every step of the system. -/
theorem unit_state_machine :
    (∀ (stop : Bool) (q : List WorkItem), wake stop q = true →
      (workerIter stop q = .stop ↔ stop = true ∧ q = []) ∧
      (¬(stop = true ∧ q = []) →
        ∃ t rest, q = t :: rest ∧ workerIter stop q = .call (some t) rest)) ∧
    (∀ (stop : Bool) (q : List Nat), wake stop q = true →
      (printerIter stop q = .stop ↔ stop = true ∧ q = []) ∧
      (¬(stop = true ∧ q = []) →
        ∃ p rest, q = p :: rest ∧ printerIter stop q = .call (some p) rest)) ∧
    (∀ (s : State) (i : Nat) (w : Worker), s.workers[i]? = some w → w.pc = .waiting →
      ((step s (.worker i)).isSome = true ↔ wake s.taskStop s.tasks = true) ∧
      ∀ s', step s (.worker i) = some s' →
        (s.taskStop = true ∧ s.tasks = [] ∧ s'.tasks = [] ∧
          s'.workers[i]? = some ⟨.exited, w.joinable⟩) ∨
        (∃ t rest, s.tasks = t :: rest ∧ s'.tasks = rest ∧
          s'.workers[i]? = some ⟨.calling t 0, w.joinable⟩ ∧
          s'.started = s.started ++ [t])) ∧
    (∀ (s : State) (i : Nat) (w : Worker) (t : WorkItem) (k : Nat),
      s.workers[i]? = some w → w.pc = .calling t k →
      ∃ s', step s (.worker i) = some s' ∧ s'.tasks = s.tasks ∧
        ((s'.workers[i]? = some ⟨.calling t (k + 1), w.joinable⟩ ∧ s'.executed = s.executed) ∨
          (s'.workers[i]? = some ⟨.waiting, w.joinable⟩ ∧
            s'.executed = s.executed ++ [t]))) ∧
    (∀ (s s' : State) (l : Thr) (i : Nat) (w w' : Worker), step s l = some s' →
      s.workers[i]? = some w → s'.workers[i]? = some w' → w.pc ≠ .exited → w'.pc = .exited →
      l = .worker i ∧ w.pc = .waiting ∧ s.taskStop = true ∧ s.tasks = []) ∧
    (∀ (s : State) (i : Nat) (w : Worker), s.workers[i]? = some w → w.pc = .exited →
      step s (.worker i) = none ∧
      ∀ l s', step s l = some s' → ∃ w', s'.workers[i]? = some w' ∧ w'.pc = .exited) ∧
    (∀ s : State, s.printerThread.pc = .waiting →
      ((step s .printer).isSome = true ↔ wake s.printStop s.printQueue = true) ∧
      ∀ s', step s .printer = some s' →
        (s.printStop = true ∧ s.printQueue = [] ∧ s'.printQueue = [] ∧
          s'.printerThread.pc = .exited) ∨
        (∃ p rest, s.printQueue = p :: rest ∧ s'.printQueue = rest ∧
          s'.printerThread.pc = .calling p)) ∧
    (∀ (s : State) (p : Nat), s.printerThread.pc = .calling p →
      ∃ s', step s .printer = some s' ∧ s'.printQueue = s.printQueue ∧
        s'.printerThread.pc = .waiting ∧ s'.printed = s.printed ++ [p]) ∧
    (∀ (s s' : State) (l : Thr), step s l = some s' →
      s.printerThread.pc ≠ .exited → s'.printerThread.pc = .exited →
      l = .printer ∧ s.printerThread.pc = .waiting ∧ s.printStop = true ∧
        s.printQueue = []) ∧
    (∀ s : State, s.printerThread.pc = .exited →
      step s .printer = none ∧
      ∀ l s', step s l = some s' → s'.printerThread.pc = .exited) := by
  refine ⟨?_, ?_, ?_, ?_, ?_, ?_, ?_, ?_, ?_, ?_⟩
  · intro stop q hwake
    cases q with
    | nil => cases stop <;> simp_all [wake, workerIter]
    | cons t rest => cases stop <;> simp [workerIter]
  · intro stop q hwake
    cases q with
    | nil => cases stop <;> simp_all [wake, printerIter]
    | cons t rest => cases stop <;> simp [printerIter]
  · intro s i w hw hpc
    constructor
    · cases hq : s.tasks <;> cases hts : s.taskStop <;>
        simp [step, worker_loop, hw, hpc, wake, workerIter, hq, hts]
    · intro s' hs
      obtain ⟨w1, hw1, hcase⟩ := workerStep_cases hs
      rw [hw] at hw1
      simp only [Option.some.injEq] at hw1
      subst hw1
      have hlt : i < s.workers.length := by
        rw [List.getElem?_eq_some] at hw; exact hw.1
      rcases hcase with ⟨_, hstop, hq, rfl⟩ | ⟨t, rest, _, hq, rfl⟩ | ⟨t, k, p, hpc', _, rfl⟩ |
        ⟨t, k, hpc', _, rfl⟩
      · exact Or.inl ⟨hstop, hq, hq, by simp [State.setWorker, hlt]⟩
      · exact Or.inr ⟨t, rest, hq, rfl, by simp [State.setWorker, hlt], rfl⟩
      · rw [hpc] at hpc'; simp at hpc'
      · rw [hpc] at hpc'; simp at hpc'
  · intro s i w t k hw hpc
    have hlt : i < s.workers.length := by
      rw [List.getElem?_eq_some] at hw; exact hw.1
    cases hp : t.prints[k]? with
    | some p =>
      exact ⟨(submitPrintTask s p).setWorker i { w with pc := .calling t (k + 1) },
        by simp only [step, worker_loop, hw, hpc, hp], rfl,
        Or.inl ⟨by simp [State.setWorker, submitPrintTask, hlt], rfl⟩⟩
    | none =>
      exact ⟨{ s with executed := s.executed ++ [t] }.setWorker i { w with pc := .waiting },
        by simp only [step, worker_loop, hw, hpc, hp], rfl,
        Or.inr ⟨by simp [State.setWorker, hlt], rfl⟩⟩
  · intro s s' l i w w' hs hw hw' hne he
    by_cases hl : l = .worker i
    · subst hl
      obtain ⟨w1, hw1, hcase⟩ := workerStep_cases hs
      rw [hw] at hw1
      simp only [Option.some.injEq] at hw1
      subst hw1
      have hlt : i < s.workers.length := by
        rw [List.getElem?_eq_some] at hw; exact hw.1
      rcases hcase with ⟨hpc, hstop, hq, rfl⟩ | ⟨t, rest, _, hq, rfl⟩ | ⟨t, k, p, hpc', _, rfl⟩ |
        ⟨t, k, hpc', _, rfl⟩
      · exact ⟨rfl, hpc, hstop, hq⟩
      · simp [State.setWorker, hlt] at hw'; rw [← hw'] at he; simp at he
      · simp [State.setWorker, submitPrintTask, hlt] at hw'; rw [← hw'] at he; simp at he
      · simp [State.setWorker, hlt] at hw'; rw [← hw'] at he; simp at he
    · have := worker_pc_other (i := i) hs hl
      rw [hw, hw'] at this
      simp only [Option.map_some', Option.some.injEq] at this
      exact absurd (this ▸ he) hne
  · intro s i w hw hpc
    refine ⟨by simp [step, worker_loop, hw, hpc], fun l s' hs => ?_⟩
    have hl : l ≠ .worker i := by
      intro e
      subst e
      simp [step, worker_loop, hw, hpc] at hs
    have := worker_pc_other (i := i) hs hl
    rw [hw] at this
    cases hw' : s'.workers[i]? with
    | none => rw [hw'] at this; simp at this
    | some w' =>
      rw [hw'] at this
      simp only [Option.map_some', Option.some.injEq] at this
      exact ⟨w', rfl, by rw [this, hpc]⟩
  · intro s hpc
    constructor
    · cases hq : s.printQueue <;> cases hps : s.printStop <;>
        simp [step, printer_loop, hpc, wake, printerIter, hq, hps]
    · intro s' hs
      rcases printerStep_cases hs with ⟨_, hstop, hq, rfl⟩ | ⟨p, rest, _, hq, rfl⟩ |
        ⟨p, hpc', rfl⟩
      · exact Or.inl ⟨hstop, hq, hq, rfl⟩
      · exact Or.inr ⟨p, rest, hq, rfl, rfl⟩
      · rw [hpc] at hpc'; simp at hpc'
  · intro s p hpc
    exact ⟨{ s with printed := s.printed ++ [p],
                    printerThread := { s.printerThread with pc := .waiting } },
      by simp only [step, printer_loop, hpc], rfl, rfl, rfl⟩
  · intro s s' l hs hne he
    by_cases hl : l = .printer
    · subst hl
      rcases printerStep_cases hs with ⟨hpc, hstop, hq, rfl⟩ | ⟨p, rest, _, hq, rfl⟩ |
        ⟨p, hpc', rfl⟩
      · exact ⟨rfl, hpc, hstop, hq⟩
      · simp at he
      · simp at he
    · rw [printer_pc_other hs hl] at he
      exact absurd he hne
  · intro s hpc
    refine ⟨by simp [step, printer_loop, hpc], fun l s' hs => ?_⟩
    have hl : l ≠ .printer := by
      intro e
      subst e
      simp [step, printer_loop, hpc] at hs
    rw [printer_pc_other hs hl, hpc]

/-- C10. The printer loop never invokes an empty callable. Print items are non-empty
callables (the item type has no empty value); the local variable `task` of the loop is an
option, `none` being the default-constructed empty `std::function`. (1) Whenever the wait
predicate (`printStop` or queue non-empty) holds and the iteration reaches `task()`, the
queue was non-empty, `task` holds its front item, and the queue left behind is its tail.
(2) Every printer step that enters `task()` does so with the item it dequeued from the front
of the queue in that same step, and no printer step reaches the bad call. (3) In no
reachable state of a pool built by either constructor, under any program of the owner, has
the printer called an empty `task`. (4) The predicate is needed: after a wake-up with
`printStop` false and the queue empty the iteration would call the empty `task`. -/
theorem printer_never_calls_empty :
    (∀ (α : Type) (stop : Bool) (q : List α) (task : Option α) (rest : List α),
      wake stop q = true → printerIter stop q = .call task rest →
        (!q.isEmpty) = true ∧ ∃ p, q = p :: rest ∧ task = some p) ∧
    (∀ s s' : State, step s .printer = some s' →
      s'.printerThread.pc ≠ .fault ∧
      ∀ p, s.printerThread.pc = .waiting → s'.printerThread.pc = .calling p →
        s.printQueue = p :: s'.printQueue) ∧
    (∀ (prog : List Op) (s0 s : State), Initial prog s0 → Reach s0 s →
      s.printerThread.pc ≠ .fault) ∧
    printerIter false ([] : List Nat) = .call none [] := by
  refine ⟨?_, ?_, ?_, rfl⟩
  · intro α stop q task rest hwake hcall
    cases q with
    | nil =>
      cases stop
      · simp [wake] at hwake
      · simp [printerIter] at hcall
    | cons p ps =>
      simp only [printerIter, List.isEmpty_cons, Bool.and_false, Bool.false_eq_true, if_false,
        Bool.not_false, if_true, List.head?_cons, List.tail_cons, Iter.call.injEq] at hcall
      obtain ⟨rfl, rfl⟩ := hcall
      exact ⟨rfl, p, rfl, rfl⟩
  · intro s s' hs
    rcases printerStep_cases hs with ⟨hpc, hstop, hq, rfl⟩ | ⟨p, rest, hpc, hq, rfl⟩ |
      ⟨p, hpc, rfl⟩
    · exact ⟨by simp, fun p _ h => by simp at h⟩
    · refine ⟨by simp, fun p' _ h => ?_⟩
      simp only [PrinterPc.calling.injEq] at h
      subst h
      exact hq
    · exact ⟨by simp, fun p' h _ => by rw [hpc] at h; simp at h⟩
  · intro prog s0 s h0 hr
    exact (ctl_reach h0 hr).pNoFault

end ThreadPool
